import Mathlib

/-! Reverse cat (`tac.c`)

A shallow embedding of `src/tac.c` and the verification of its specification.

Conventions of the embedding

* A byte is a natural number; `10` is the line-feed, `0` the NUL byte.
* A C character array is the list of the bytes written to it; the C string it
  holds is the part before the first NUL byte (`cstr`).
* A `line_list_t *` is the list of the nodes reached through `next`; the null
  pointer is the empty list.
* Loops whose termination is not structural take a fuel argument and return
  `none` when it runs out; the functions calling them supply the fuel.
* Library calls act on an explicit `World`: the files that can be opened for
  reading, the files that exist but cannot, the names that can be opened for
  writing, the values returned by the successive `fputs` calls, and the trace
  of the calls made so far.
-/

namespace Tac

/-! ## Constants and macros -/

/-- The macro `MIN(a,b)`. -/
def MIN (a b : Nat) : Nat := if a < b then a else b

/-- Size definition of text lines. -/
def MAX_LINE_LEN : Nat := 32766

/-- Room kept to add a line-feed to the end of a string. -/
def BUFFER_FOR_LF : Nat := 2

/-- The line-feed character. -/
def LF : Nat := 10

/-- The value `fputs` returns in case of error. -/
def EOF : Int := -1

/-- Exit status of a successful run. -/
def EXIT_SUCCESS : Int := 0

/-- Exit status of a failed run. -/
def EXIT_FAILURE : Int := 1

/-! ## C strings -/

/-- The C string held in a character array: the bytes before the first NUL.
When none of the bytes written is NUL the array holds no string, in C the
string runs on behind them; the value is then all the bytes written. -/
def cstr (buf : List Nat) : List Nat := buf.takeWhile (fun c => c != 0)

/-- The library function `strlen`. -/
def strlen (buf : List Nat) : Nat := (cstr buf).length

/-- The bytes `strncpy(dst, src, n)` writes to `dst`: the first `n` characters
of the string in `src`, padded with NUL bytes up to `n` bytes when the string
is shorter; no NUL is written when the string has `n` characters or more. -/
def strncpy (src : List Nat) (n : Nat) : List Nat :=
  (cstr src).take n ++ List.replicate (n - strlen src) 0

/-- The array `dst` after `strncat(dst, src, n)`: at most `n` characters of the
string in `src` and a terminating NUL are written from the end of the string
in `dst` on. -/
def strncat (dst src : List Nat) (n : Nat) : List Nat :=
  cstr dst ++ (cstr src).take n ++ [0] ++ dst.drop (strlen dst + ((cstr src).take n).length + 1)

/-! ## The line store -/

/-- A character array obtained from `malloc`: the number of bytes allocated and
the bytes written to it so far, from its start. -/
structure text_buffer where
  capacity : Nat
  bytes : List Nat
deriving DecidableEq, Repr

/-- One element of the linked list; its `next` field is the rest of the list
that holds it. -/
structure line_list_t where
  textline : Option text_buffer
deriving DecidableEq, Repr

/-- A pointer to a list element: the elements from it on, `[]` for `NULL`. -/
abbrev line_list := List line_list_t

/-- Store the content of one text line at the beginning of the linked list.
Both `malloc` calls are taken to succeed. -/
def add_text_line_as_first_list_element (p_current_list : line_list)
    (line : Option (List Nat)) : line_list :=
  match line with
  | some line =>
      { textline := some
          { capacity := strlen line + BUFFER_FOR_LF
            bytes := strncpy line (MIN (strlen line + BUFFER_FOR_LF) MAX_LINE_LEN) } }
        :: p_current_list
  | none => { textline := none } :: p_current_list

/-- The `for` loop of `add_linefeed_at_last_line`: given the characters of the
string from index `i` on, the value of `i` when the loop is left. -/
def linefeed_scan : List Nat → Nat → Nat
  | [], i => i
  | c :: rest, i => if c = LF then i else linefeed_scan rest (i + 1)

/-- Special handling of the last line: add a line-feed to the text of the head
when it holds none. The result is `none` when the code leaves the bounds of
what it was given: the head has a null `textline`, on which the code calls
`strlen`; no NUL is among the bytes written to the buffer, so that `strlen`
runs on behind them; or the buffer has no room for the line-feed and the NUL
that `strncat` writes behind the string. The `int` variables `i` and
`length_of_string` are natural numbers here. -/
def add_linefeed_at_last_line (p_list : line_list) : Option line_list :=
  match p_list with
  | [] => some []
  | entry :: next =>
      match entry.textline with
      | none => none
      | some buf =>
          if 0 ∈ buf.bytes then
            let length_of_string := strlen buf.bytes
            let i := linefeed_scan (cstr buf.bytes) 0
            if i = length_of_string then
              if strlen buf.bytes + 2 ≤ buf.capacity then
                some ({ textline :=
                    some { buf with bytes := strncat buf.bytes [LF] BUFFER_FOR_LF } } :: next)
              else none
            else some (entry :: next)
          else none

/-! ## Reading -/

/-- The characters `fgets` takes from the stream when it may still store `k` of
them, and the stream left: reading stops after a line-feed, at the end of the
stream, or when `k` characters are stored. -/
def fgets_chars : Nat → List Nat → List Nat × List Nat
  | 0, stream => ([], stream)
  | _ + 1, [] => ([], [])
  | k + 1, c :: stream =>
      if c = LF then ([c], stream)
      else ((c :: (fgets_chars k stream).1), (fgets_chars k stream).2)

/-- The library function `fgets(buffer, n, file)` on a stream of bytes: `none`
(the null pointer) at the end of the stream, otherwise the array filled (at
most `n - 1` characters and a NUL) and the stream left. -/
def fgets (n : Nat) (stream : List Nat) : Option (List Nat × List Nat) :=
  match stream with
  | [] => none
  | _ :: _ => some ((fgets_chars (n - 1) stream).1 ++ [0], (fgets_chars (n - 1) stream).2)

/-- The `while` loop of `read_text_lines_from_file`; `none` when the fuel runs
out. -/
def read_loop : Nat → List Nat → line_list → Option line_list
  | 0, _, _ => none
  | fuel + 1, stream, p_head =>
      match fgets (MAX_LINE_LEN - 1) stream with
      | none => some p_head
      | some (text_line, rest) =>
          read_loop fuel rest (add_text_line_as_first_list_element p_head (some text_line))

/-! ## The world of the library calls -/

/-- The mode of an `fopen` call. -/
inductive Mode where
  | r
  | w
deriving DecidableEq, Repr

/-- The functions of the program whose calls are recorded. -/
inductive Func where
  | check_command_line_arguments
  | read_text_lines_from_file
  | write_reversed_lines
  | reverse_file
deriving DecidableEq, Repr

/-- The diagnostics printed with `printf`; their wording is not modelled. -/
inductive Message where
  | normal_color
  | usage
  | source_missing
  | destination_exists
deriving DecidableEq, Repr

/-- What the program does to its environment. -/
inductive Event where
  | call (f : Func)
  | fopen (name : Option String) (mode : Mode) (ok : Bool)
  | fclose
  | printf (m : Message)
  | fputs (text : List Nat) (result : Int)
deriving DecidableEq, Repr

/-- The environment of a run. `files name` is the content of the file `name`
when `fopen(name, "r")` succeeds on it, and `none` otherwise; `write_only name`
is the content of the file `name` when it exists but `fopen(name, "r")` fails
on it. `creatable name` tells whether `fopen(name, "w")` succeeds;
`fputs_result k` is the value returned by the `k`-th call of `fputs` (counted
from 0); `trace` lists the events so far, oldest first. -/
structure World where
  files : String → Option (List Nat)
  write_only : String → Option (List Nat)
  creatable : String → Bool
  fputs_result : Nat → Int
  trace : List Event

/-- Append an event to the trace. -/
def World.log (w : World) (e : Event) : World :=
  { w with trace := w.trace ++ [e] }

/-- The call `fopen(name, "r")`: the stream opened, if any. A null `name` opens
nothing. -/
def fopen_r (w : World) (name : Option String) : Option (List Nat) × World :=
  (name.bind w.files, w.log (Event.fopen name Mode.r (name.bind w.files).isSome))

/-- The call `fopen(name, "w")`: on success the file exists and is empty,
whatever it held before; what it holds from then on is recorded in `files`. -/
def fopen_w (w : World) (name : String) : Bool × World :=
  if w.creatable name then
    (true, { (w.log (Event.fopen (some name) Mode.w true)) with
               files := Function.update w.files name (some [])
               write_only := Function.update w.write_only name none })
  else (false, w.log (Event.fopen (some name) Mode.w false))

/-- Read all lines from a file and store them in the linked list; the result
is the head of the list. The stream is never closed. -/
def read_text_lines_from_file (w : World) (filename : Option String) :
    Option (line_list × World) :=
  let w := w.log (Event.call Func.read_text_lines_from_file)
  match fopen_r w filename with
  | (some stream, w) =>
      match read_loop (stream.length + 1) stream [] with
      | none => none
      | some p_head =>
          match add_linefeed_at_last_line p_head with
          | none => none
          | some p_head => some (p_head, w)
  | (none, w) => some ([], w)

/-! ## Writing -/

/-- The local state of the loop of `write_reversed_lines`: the variable
`write_error`, the `fputs` calls made (text and value returned), the bytes the
destination has taken, and the number of list elements freed. -/
structure write_state where
  write_error : Int
  attempts : List (List Nat × Int)
  written : List Nat
  freed : Nat
deriving DecidableEq, Repr

/-- One `fputs` call: the text is taken by the destination unless the call
returns `EOF`. -/
def fputs (fputs_result : Nat → Int) (text : List Nat) (st : write_state) : write_state :=
  { st with
    write_error := fputs_result st.attempts.length
    attempts := st.attempts ++ [(cstr text, fputs_result st.attempts.length)]
    written :=
      if fputs_result st.attempts.length = EOF then st.written else st.written ++ cstr text }

/-- The `while` loop of `write_reversed_lines`. -/
def write_loop (fputs_result : Nat → Int) : line_list → write_state → write_state
  | [], st => st
  | current_list_entry :: next, st =>
      let st :=
        match current_list_entry.textline with
        | some buf => if st.write_error ≠ EOF then fputs fputs_result buf.bytes st else st
        | none => st
      write_loop fputs_result next { st with freed := st.freed + 1 }

/-- The state in which the loop of `write_reversed_lines` is entered. -/
def write_start : write_state :=
  { write_error := 0, attempts := [], written := [], freed := 0 }

/-- What a call of `write_reversed_lines` gives: the value returned, whether
the destination was opened, the final state of the loop, and the world. -/
structure write_outcome where
  status : Int
  opened : Bool
  state : write_state
  world : World

/-- The `fputs` calls of a loop state as events. -/
def fputs_events (st : write_state) : List Event :=
  st.attempts.map (fun a => Event.fputs a.1 a.2)

/-- Write all lines stored in the linked list to a new file, or to standard
output when `filename` is null. -/
def write_reversed_lines (w : World) (head : line_list) (filename : Option String) :
    write_outcome :=
  let w := w.log (Event.call Func.write_reversed_lines)
  match filename with
  | some name =>
      match fopen_w w name with
      | (true, w) =>
          let st := write_loop w.fputs_result head write_start
          { status := if st.write_error ≠ EOF then EXIT_SUCCESS else EXIT_FAILURE
            opened := true
            state := st
            world :=
              { w with
                files := Function.update w.files name (some st.written)
                trace := w.trace ++ fputs_events st ++ [Event.fclose] } }
      | (false, w) =>
          { status := EXIT_FAILURE, opened := false, state := write_start, world := w }
  | none =>
      let st := write_loop w.fputs_result head write_start
      { status := if st.write_error ≠ EOF then EXIT_SUCCESS else EXIT_FAILURE
        opened := true
        state := st
        world := { w with trace := w.trace ++ fputs_events st } }

/-! ## The program -/

/-- Read the text and write it in reversed order, to the file named by the
second argument or to standard output. -/
def reverse_file (w : World) (argv : List String) : Option (Int × World) :=
  let w := w.log (Event.call Func.reverse_file)
  match read_text_lines_from_file w argv[1]? with
  | none => none
  | some (head, w) =>
      match head with
      | _ :: _ =>
          let write_result :=
            write_reversed_lines w head (if argv.length > 2 then argv[2]? else none)
          some (write_result.status, write_result.world)
      | [] => some (EXIT_FAILURE, w)

/-- Basic consistency and error checking of the arguments; `argc` is the
length of `argv`, and `argv[argc]` is null. -/
def check_command_line_arguments (w : World) (argv : List String) : Int × World :=
  let w := w.log (Event.call Func.check_command_line_arguments)
  if argv.length ≤ 1 then
    (EXIT_FAILURE,
      ((w.log (Event.printf Message.normal_color)).log (Event.printf Message.usage)).log
        (Event.printf Message.normal_color))
  else
    let w := w.log (Event.printf Message.normal_color)
    if argv.length > 1 then
      match fopen_r w argv[1]? with
      | (none, w) =>
          (EXIT_FAILURE,
            ((w.log (Event.printf Message.normal_color)).log
              (Event.printf Message.source_missing)).log (Event.printf Message.normal_color))
      | (some _, w) =>
          let w := w.log Event.fclose
          if argv.length > 1 then
            match fopen_r w argv[2]? with
            | (some _, w) =>
                (EXIT_FAILURE,
                  ((((w.log Event.fclose).log (Event.printf Message.normal_color)).log
                    (Event.printf Message.destination_exists)).log
                      (Event.printf Message.normal_color)))
            | (none, w) => (EXIT_SUCCESS, w)
          else (EXIT_SUCCESS, w)
    else (EXIT_SUCCESS, w)

/-- The function `main`: the exit status and the world left; `none` only when
a loop of the model runs out of fuel or the code calls `strlen` on a null
pointer. -/
def main (w : World) (argv : List String) : Option (Int × World) :=
  match check_command_line_arguments w argv with
  | (failure, w) =>
      if failure = 0 then reverse_file w argv
      else some (failure, w)

/-! ## The lines of a file, as the specification speaks of them -/

/-- The lines of a file, each with its terminator when it has one: a line ends
at a line-feed or at the end of the file. -/
def file_lines : List Nat → List (List Nat)
  | [] => []
  | c :: cs =>
      if c = LF then [LF] :: file_lines cs
      else
        match file_lines cs with
        | [] => [[c]]
        | l :: ls => (c :: l) :: ls

/-- The text of a line, without its terminator. -/
def line_content (l : List Nat) : List Nat := l.takeWhile (fun c => c != LF)

/-- The texts of the lines of a file, without terminators. -/
def spec_lines (f : List Nat) : List (List Nat) := (file_lines f).map line_content

/-- The file made of the given line texts, a line-feed after each. -/
def unlines : List (List Nat) → List Nat
  | [] => []
  | l :: ls => l ++ LF :: unlines ls

/-- The text a list element holds; nothing when its `textline` is null. -/
def node_text (entry : line_list_t) : List Nat :=
  match entry.textline with
  | some buf => cstr buf.bytes
  | none => []

/-- The list element the reader makes for a piece `t` that holds no NUL byte
and has at most `MAX_LINE_LEN - 2` bytes. -/
def node_of (t : List Nat) : line_list_t :=
  { textline := some { capacity := t.length + 2, bytes := t ++ [0, 0] } }

/-- The list element `node_of t` after the terminator fix-up has added a
line-feed to its text. -/
def node_with_linefeed (t : List Nat) : line_list_t :=
  { textline := some { capacity := t.length + 2, bytes := t ++ [LF, 0] } }

/-- The texts of a list, head to tail, one after the other. -/
def store_text (head : line_list) : List Nat := (head.map node_text).flatten

/-- Every write of a run succeeds: no `fputs` call returns `EOF`, and the
destination, when it is a named file, can be opened for writing. -/
def writes_succeed (w : World) (filename : Option String) : Prop :=
  (∀ k, w.fputs_result k ≠ EOF) ∧ ∀ name, filename = some name → w.creatable name = true

/-- The bytes a run of the reader and the writer delivers to the destination:
the file `name` is read in the world `w`, and the list is written to
`filename` (standard output when it is `none`). -/
def reversal_output (w : World) (name : String) (filename : Option String) :
    Option (List Nat) :=
  match read_text_lines_from_file w (some name) with
  | none => none
  | some (head, w1) => some (write_reversed_lines w1 head filename).state.written

/-- A world holding one file, called `in`, in which every `fputs` succeeds and
every destination can be opened. -/
def one_file_world (content : List Nat) : World :=
  { files := fun n => if n = "in" then some content else none
    write_only := fun _ => none
    creatable := fun _ => true
    fputs_result := fun _ => 1
    trace := [] }

/-- The reversal of a file content: what the program delivers to standard
output for a file with this content when every write succeeds. -/
def tac_bytes (content : List Nat) : Option (List Nat) :=
  reversal_output (one_file_world content) "in" none

/-- What holds of the local state throughout the loop: `write_error` is `EOF`
exactly when some call returned `EOF`; the values returned are those of the
world, in order; only the last call made may have returned `EOF`. -/
def write_invariant (o : Nat → Int) (st : write_state) : Prop :=
  (st.write_error = EOF ↔ ∃ a ∈ st.attempts, a.2 = EOF)
    ∧ st.attempts.map (fun a => a.2) = (List.range st.attempts.length).map o
    ∧ ∀ j, j + 1 < st.attempts.length → ∀ a, st.attempts[j]? = some a → a.2 ≠ EOF

/-- The texts of the list elements whose `textline` is not null, head to
tail. -/
def store_texts (head : line_list) : List (List Nat) :=
  head.filterMap (fun entry => entry.textline.map (fun buf => cstr buf.bytes))

/-- The events that create or change a file or deliver bytes to a
destination: opening for writing and writing. -/
def Event.writes : Event → Bool
  | Event.fopen _ Mode.w _ => true
  | Event.fputs _ _ => true
  | _ => false

/-- The events that touch the file system or a stream: opening, closing and
writing. -/
def Event.accesses_files : Event → Bool
  | Event.fopen _ _ _ => true
  | Event.fclose => true
  | Event.fputs _ _ => true
  | _ => false

/-- A run of `MAX_LINE_LEN - 2` letters `a`: as many bytes as one `fgets` call
of the reader takes. -/
def long_block : List Nat := List.replicate (MAX_LINE_LEN - 2) 97

/-- The file `"a\nb\nc"`. -/
def abc_file : List Nat := [97, LF, 98, LF, 99]

/-- A world without files in which the second `fputs` call returns `EOF`. -/
def second_write_fails : World :=
  { files := fun _ => none
    write_only := fun _ => none
    creatable := fun _ => true
    fputs_result := fun k => if k = 1 then EOF else 1
    trace := [] }

/-- The list read from the file `"a\nb\nc"`. -/
def abc_store : line_list :=
  [node_with_linefeed [99], node_of [98, LF], node_of [97, LF]]

/-- A list whose second element has a null `textline`: the texts `"c\n"` and
`"a\n"` around a sentinel. -/
def store_with_sentinel : line_list :=
  [node_of [99, LF], { textline := none }, node_of [97, LF]]

/-- A world with the file `in`, holding `"a\nb\nc"`, and a file `out` that
exists, holds the letter `x`, and cannot be opened for reading but can be
opened for writing. -/
def write_only_world : World :=
  { files := fun n => if n = "in" then some abc_file else none
    write_only := fun n => if n = "out" then some [120] else none
    creatable := fun _ => true
    fputs_result := fun _ => 1
    trace := [] }

/-- A text of `MAX_LINE_LEN` letters `a`. -/
def long_text : List Nat := List.replicate MAX_LINE_LEN 97

/-! ## C strings -/

theorem cstr_eq_self {l : List Nat} (h : 0 ∉ l) : cstr l = l := by
  induction l with
  | nil => rfl
  | cons c cs ih =>
    simp only [List.mem_cons, not_or] at h
    have hc : c ≠ 0 := fun e => h.1 e.symm
    simp only [cstr, List.takeWhile_cons] at ih ⊢
    simp [hc, ih h.2]

theorem cstr_append_nul {l : List Nat} (h : 0 ∉ l) (r : List Nat) : cstr (l ++ 0 :: r) = l := by
  induction l with
  | nil => simp [cstr]
  | cons c cs ih =>
    simp only [List.mem_cons, not_or] at h
    have hc : c ≠ 0 := fun e => h.1 e.symm
    simp only [cstr, List.cons_append, List.takeWhile_cons] at ih ⊢
    simp [hc, ih h.2]

theorem nul_not_mem_cstr (l : List Nat) : 0 ∉ cstr l := by
  intro h
  have := List.mem_takeWhile_imp h
  simp at this

theorem cstr_append_nul_gen (l r : List Nat) : cstr (l ++ 0 :: r) = cstr l := by
  induction l with
  | nil => simp [cstr]
  | cons c cs ih =>
    by_cases hc : c = 0
    · simp [cstr, hc]
    · simp only [cstr, List.cons_append, List.takeWhile_cons] at ih ⊢
      simp [hc, ih]

/-! ## `fgets` -/

theorem fgets_chars_append (k : Nat) (s : List Nat) :
    (fgets_chars k s).1 ++ (fgets_chars k s).2 = s := by
  induction k generalizing s with
  | zero => simp [fgets_chars]
  | succ k ih =>
    cases s with
    | nil => simp [fgets_chars]
    | cons c s =>
      by_cases hc : c = LF
      · simp [fgets_chars, hc]
      · simp [fgets_chars, hc, ih s]

theorem fgets_chars_length_le (k : Nat) (s : List Nat) : (fgets_chars k s).1.length ≤ k := by
  induction k generalizing s with
  | zero => simp [fgets_chars]
  | succ k ih =>
    cases s with
    | nil => simp [fgets_chars]
    | cons c s =>
      by_cases hc : c = LF
      · simp [fgets_chars, hc]
      · simp [fgets_chars, hc, ih s]

theorem fgets_chars_rest_le (k : Nat) (s : List Nat) : (fgets_chars k s).2.length ≤ s.length := by
  have h := congrArg List.length (fgets_chars_append k s)
  simp only [List.length_append] at h
  omega

theorem fgets_chars_rest_lt (k : Nat) (c : Nat) (s : List Nat) :
    (fgets_chars (k + 1) (c :: s)).2.length < (c :: s).length := by
  by_cases hc : c = LF
  · simp [fgets_chars, hc]
  · have := fgets_chars_rest_le k s
    simp only [fgets_chars, hc, if_false, List.length_cons]
    omega

theorem fgets_chars_line {k : Nat} {l : List Nat} (rest : List Nat) (hl : LF ∉ l)
    (hk : l.length < k) : fgets_chars k (l ++ LF :: rest) = (l ++ [LF], rest) := by
  induction l generalizing k with
  | nil =>
    cases k with
    | zero => omega
    | succ k => simp [fgets_chars]
  | cons c cs ih =>
    simp only [List.mem_cons, not_or] at hl
    have hc : c ≠ LF := fun e => hl.1 e.symm
    cases k with
    | zero => simp at hk
    | succ k =>
      simp only [List.length_cons, Nat.add_lt_add_iff_right] at hk
      simp [fgets_chars, hc, ih hl.2 hk]

theorem fgets_chars_last {k : Nat} {l : List Nat} (hl : LF ∉ l)
    (hk : l.length ≤ k) : fgets_chars k l = (l, []) := by
  induction l generalizing k with
  | nil => cases k <;> simp [fgets_chars]
  | cons c cs ih =>
    simp only [List.mem_cons, not_or] at hl
    have hc : c ≠ LF := fun e => hl.1 e.symm
    cases k with
    | zero => simp at hk
    | succ k =>
      simp only [List.length_cons, Nat.add_le_add_iff_right] at hk
      simp [fgets_chars, hc, ih hl.2 hk]

/-- When the stream starts with `k` bytes none of which is a line-feed, `fgets`
takes exactly these. -/
theorem fgets_chars_block {k : Nat} {l : List Nat} (rest : List Nat) (hl : LF ∉ l)
    (hk : l.length = k) : fgets_chars k (l ++ rest) = (l, rest) := by
  induction l generalizing k with
  | nil => subst hk; simp [fgets_chars]
  | cons c cs ih =>
    simp only [List.mem_cons, not_or] at hl
    have hc : c ≠ LF := fun e => hl.1 e.symm
    cases k with
    | zero => simp at hk
    | succ k =>
      simp only [List.length_cons, Nat.add_right_cancel_iff] at hk
      simp [fgets_chars, hc, ih hl.2 hk]

/-! ## The list element made for a piece -/

theorem add_text_line_piece (head : line_list) {t : List Nat} (h0 : 0 ∉ t)
    (hlen : t.length ≤ MAX_LINE_LEN - 2) :
    add_text_line_as_first_list_element head (some (t ++ [0])) = node_of t :: head := by
  have hc : cstr (t ++ [0]) = t := cstr_append_nul h0 []
  have hm : MIN (t.length + 2) 32766 = t.length + 2 := by
    simp only [MAX_LINE_LEN] at hlen
    unfold MIN
    split <;> omega
  simp only [add_text_line_as_first_list_element, strncpy, strlen, hc, BUFFER_FOR_LF,
    MAX_LINE_LEN, hm, node_of]
  have h1 : List.take (t.length + 2) t = t := List.take_of_length_le (by omega)
  have h2 : t.length + 2 - t.length = 2 := by omega
  simp [h1, h2]

theorem node_text_node_of {t : List Nat} (h0 : 0 ∉ t) : node_text (node_of t) = t := by
  simp only [node_text, node_of]
  exact cstr_append_nul h0 [0]

theorem strlen_le_length (buf : List Nat) : strlen buf ≤ buf.length := by
  induction buf with
  | nil => simp [strlen, cstr]
  | cons c cs ih =>
    simp only [strlen, cstr, List.takeWhile_cons] at ih ⊢
    split
    · simp only [List.length_cons]
      omega
    · simp

/-- The list element made for a string of at most `MAX_LINE_LEN - 2`
characters: the whole string and two NUL bytes. -/
theorem add_text_line_short (head : line_list) {text : List Nat}
    (hlen : strlen text ≤ MAX_LINE_LEN - 2) :
    add_text_line_as_first_list_element head (some text) = node_of (cstr text) :: head := by
  have hm : MIN (strlen text + 2) 32766 = strlen text + 2 := by
    simp only [MAX_LINE_LEN] at hlen
    unfold MIN
    split <;> omega
  have h1 : List.take (strlen text + 2) (cstr text) = cstr text :=
    List.take_of_length_le (by simp only [strlen]; omega)
  have h2 : strlen text + 2 - strlen text = 2 := by omega
  simp only [add_text_line_as_first_list_element, strncpy, BUFFER_FOR_LF, MAX_LINE_LEN, hm,
    node_of, h1, h2]
  simp [strlen]

theorem node_text_node_with_linefeed {t : List Nat} (h0 : 0 ∉ t) :
    node_text (node_with_linefeed t) = t ++ [LF] := by
  simp only [node_text, node_with_linefeed]
  have h : 0 ∉ t ++ [LF] := by simp [h0, LF]
  have := cstr_append_nul h []
  simpa using this

/-! ## The terminator fix-up -/

theorem linefeed_scan_le (s : List Nat) (i : Nat) : linefeed_scan s i ≤ i + s.length := by
  induction s generalizing i with
  | nil => simp [linefeed_scan]
  | cons c cs ih =>
    by_cases hc : c = LF
    · simp [linefeed_scan, hc]
    · have := ih (i + 1)
      simp only [linefeed_scan, hc, if_false, List.length_cons]
      omega

theorem linefeed_scan_eq_iff (s : List Nat) (i : Nat) :
    linefeed_scan s i = i + s.length ↔ LF ∉ s := by
  induction s generalizing i with
  | nil => simp [linefeed_scan]
  | cons c cs ih =>
    by_cases hc : c = LF
    · simp [linefeed_scan, hc]
    · have h := ih (i + 1)
      have hc2 : ¬ LF = c := fun e => hc e.symm
      simp only [linefeed_scan, hc, if_false, List.length_cons, List.mem_cons, hc2, false_or]
      rw [← h]
      omega

theorem add_linefeed_node_of (next : line_list) {t : List Nat} (h0 : 0 ∉ t) :
    add_linefeed_at_last_line (node_of t :: next)
      = some ((if LF ∈ t then node_of t else node_with_linefeed t) :: next) := by
  have hc : cstr (t ++ [0, 0]) = t := cstr_append_nul h0 [0]
  have hs := linefeed_scan_eq_iff t 0
  simp only [Nat.zero_add] at hs
  by_cases hl : LF ∈ t
  · have hne : ¬ linefeed_scan t 0 = t.length := fun e => (hs.1 e) hl
    simp [add_linefeed_at_last_line, node_of, strlen, hc, hne, hl]
  · have he : linefeed_scan t 0 = t.length := hs.2 hl
    have hd : List.drop (t.length + 1 + 1) (t ++ [0, 0]) = [] := by
      apply List.drop_of_length_le
      simp
    have hlf : cstr [LF] = [LF] := by decide
    simp only [add_linefeed_at_last_line, node_of, node_with_linefeed, strlen, hc, he, hl,
      strncat, hlf, BUFFER_FOR_LF, if_true, if_false]
    simp [hd]

/-! ## The reading loop on a file given by its lines -/

theorem fgets_cons (n c : Nat) (s : List Nat) :
    fgets n (c :: s)
      = some ((fgets_chars (n - 1) (c :: s)).1 ++ [0], (fgets_chars (n - 1) (c :: s)).2) := rfl

theorem fgets_of_ne_nil (n : Nat) {s : List Nat} (h : s ≠ []) :
    fgets n s = some ((fgets_chars (n - 1) s).1 ++ [0], (fgets_chars (n - 1) s).2) := by
  cases s with
  | nil => exact absurd rfl h
  | cons c s => rfl

/-- The array `fgets` fills holds a string of at most `n - 1` characters. -/
theorem strlen_fgets {n : Nat} {stream buf rest : List Nat}
    (h : fgets n stream = some (buf, rest)) : strlen buf ≤ n - 1 := by
  cases stream with
  | nil => simp [fgets] at h
  | cons c s =>
    rw [fgets_cons] at h
    cases h
    have h1 := fgets_chars_length_le (n - 1) (c :: s)
    have h2 := strlen_le_length (fgets_chars (n - 1) (c :: s)).1
    have h3 : strlen ((fgets_chars (n - 1) (c :: s)).1 ++ [0])
        = strlen (fgets_chars (n - 1) (c :: s)).1 := by
      simp only [strlen, cstr_append_nul_gen]
    omega

theorem read_loop_nil (fuel : Nat) (head : line_list) :
    read_loop (fuel + 1) [] head = some head := rfl

theorem read_loop_step (fuel : Nat) {s : List Nat} (h : s ≠ []) (head : line_list) :
    read_loop (fuel + 1) s head
      = read_loop fuel (fgets_chars (MAX_LINE_LEN - 2) s).2
          (add_text_line_as_first_list_element head
            (some ((fgets_chars (MAX_LINE_LEN - 2) s).1 ++ [0]))) := by
  have := fgets_of_ne_nil (MAX_LINE_LEN - 1) h
  simp only [read_loop, this]
  rfl

theorem read_loop_tail {fuel : Nat} {tail : List Nat} (head : line_list)
    (hf : (if tail = [] then 0 else 1) < fuel)
    (h0 : 0 ∉ tail) (hl : LF ∉ tail) (hlen : tail.length ≤ MAX_LINE_LEN - 2) :
    read_loop fuel tail head = some ((if tail = [] then [] else [node_of tail]) ++ head) := by
  by_cases ht : tail = []
  · subst ht
    obtain ⟨f, rfl⟩ : ∃ f, fuel = f + 1 := ⟨fuel - 1, by simp at hf; omega⟩
    simp [read_loop_nil]
  · simp only [ht, if_false] at hf
    obtain ⟨f, rfl⟩ : ∃ f, fuel = f + 1 + 1 := ⟨fuel - 2, by omega⟩
    rw [read_loop_step _ ht, fgets_chars_last hl hlen, add_text_line_piece head h0 hlen,
      read_loop_nil]
    simp [ht]

theorem read_loop_unlines (ls : List (List Nat)) {tail : List Nat} :
    ∀ (fuel : Nat) (head : line_list), ls.length + (if tail = [] then 0 else 1) < fuel →
    (∀ l ∈ ls, 0 ∉ l ∧ LF ∉ l ∧ l.length + 1 ≤ MAX_LINE_LEN - 2) →
    0 ∉ tail → LF ∉ tail → tail.length ≤ MAX_LINE_LEN - 2 →
    read_loop fuel (unlines ls ++ tail) head
      = some ((if tail = [] then [] else [node_of tail])
          ++ (ls.map (fun l => node_of (l ++ [LF]))).reverse ++ head) := by
  induction ls with
  | nil =>
    intro fuel head hf _ h0 hl hlen
    simpa [unlines] using read_loop_tail head (by simpa using hf) h0 hl hlen
  | cons l ls ih =>
    intro fuel head hf hls h0 hl hlen
    obtain ⟨f, rfl⟩ : ∃ f, fuel = f + 1 := ⟨fuel - 1, by omega⟩
    have hl1 := hls l (List.mem_cons_self _ _)
    have hne : unlines (l :: ls) ++ tail ≠ [] := by
      cases l <;> simp [unlines]
    have hshape : unlines (l :: ls) ++ tail = l ++ LF :: (unlines ls ++ tail) := by
      simp [unlines]
    have hpiece0 : 0 ∉ l ++ [LF] := by simp [hl1.1, LF]
    have hpiecelen : (l ++ [LF]).length ≤ MAX_LINE_LEN - 2 := by simpa using hl1.2.2
    rw [read_loop_step _ hne, hshape,
      fgets_chars_line _ hl1.2.1 (by have := hl1.2.2; omega),
      add_text_line_piece head hpiece0 hpiecelen,
      ih f _ (by simp only [List.length_cons] at hf; omega)
        (fun l' h' => hls l' (List.mem_cons_of_mem _ h')) h0 hl hlen]
    simp

/-! ## Files and their lines -/

theorem unlines_append (a b : List (List Nat)) : unlines (a ++ b) = unlines a ++ unlines b := by
  induction a with
  | nil => rfl
  | cons l a ih => simp [unlines, ih]

theorem unlines_eq_flatten (ls : List (List Nat)) :
    unlines ls = (ls.map (fun l => l ++ [LF])).flatten := by
  induction ls with
  | nil => rfl
  | cons l ls ih => simp [unlines, ih]

theorem mem_unlines_of_mem {ls : List (List Nat)} {l : List Nat} {x : Nat} (hl : l ∈ ls)
    (hx : x ∈ l) : x ∈ unlines ls := by
  induction ls with
  | nil => cases hl
  | cons l' ls ih =>
    rcases List.mem_cons.1 hl with rfl | h
    · simp [unlines, hx]
    · have := ih h
      simp [unlines, this]

theorem file_lines_line {l : List Nat} (rest : List Nat) (hl : LF ∉ l) :
    file_lines (l ++ LF :: rest) = (l ++ [LF]) :: file_lines rest := by
  induction l with
  | nil => simp [file_lines]
  | cons c cs ih =>
    simp only [List.mem_cons, not_or] at hl
    have hc : c ≠ LF := fun e => hl.1 e.symm
    simp [file_lines, hc, ih hl.2]

theorem file_lines_last {l : List Nat} (hl : LF ∉ l) (hne : l ≠ []) : file_lines l = [l] := by
  induction l with
  | nil => exact absurd rfl hne
  | cons c cs ih =>
    simp only [List.mem_cons, not_or] at hl
    have hc : c ≠ LF := fun e => hl.1 e.symm
    cases cs with
    | nil => simp [file_lines, hc]
    | cons d ds =>
      have := ih hl.2 (by simp)
      simp [file_lines, hc] at this ⊢
      simp [this]

theorem file_lines_unlines (ls : List (List Nat)) (tail : List Nat)
    (hls : ∀ l ∈ ls, LF ∉ l) (ht : LF ∉ tail) :
    file_lines (unlines ls ++ tail)
      = ls.map (fun l => l ++ [LF]) ++ (if tail = [] then [] else [tail]) := by
  induction ls with
  | nil =>
    by_cases h : tail = []
    · simp [h, unlines, file_lines]
    · simp [h, unlines, file_lines_last ht h]
  | cons l ls ih =>
    have h1 := hls l (List.mem_cons_self _ _)
    have h2 := ih (fun l' h' => hls l' (List.mem_cons_of_mem _ h'))
    simp only [unlines, List.append_assoc, List.cons_append, List.map_cons]
    rw [file_lines_line _ h1, h2]

/-- Every file is a sequence of terminated lines followed by a rest without
line-feed. -/
theorem exists_unlines (f : List Nat) :
    ∃ ls tail, f = unlines ls ++ tail ∧ (∀ l ∈ ls, LF ∉ l) ∧ LF ∉ tail := by
  induction f with
  | nil => exact ⟨[], [], rfl, by simp, by simp⟩
  | cons c cs ih =>
    obtain ⟨ls, tail, hf, hls, ht⟩ := ih
    by_cases hc : c = LF
    · refine ⟨[] :: ls, tail, by simp [unlines, hf, hc], ?_, ht⟩
      intro l hl
      rcases List.mem_cons.1 hl with rfl | h
      · simp
      · exact hls l h
    · have hc2 : ¬ LF = c := fun e => hc e.symm
      cases ls with
      | nil =>
        refine ⟨[], c :: tail, by simpa [unlines] using hf, by simp, ?_⟩
        simp [hc2, ht]
      | cons l ls =>
        refine ⟨(c :: l) :: ls, tail, by simp [unlines, hf], ?_, ht⟩
        intro l' hl'
        rcases List.mem_cons.1 hl' with rfl | h
        · have := hls l (List.mem_cons_self _ _)
          simp [hc2, this]
        · exact hls l' (List.mem_cons_of_mem _ h)

theorem line_content_line {l : List Nat} (hl : LF ∉ l) : line_content (l ++ [LF]) = l := by
  induction l with
  | nil => simp [line_content]
  | cons c cs ih =>
    simp only [List.mem_cons, not_or] at hl
    have hc : c ≠ LF := fun e => hl.1 e.symm
    simp only [line_content, List.cons_append, List.takeWhile_cons] at ih ⊢
    simp [hc, ih hl.2]

theorem line_content_self {l : List Nat} (hl : LF ∉ l) : line_content l = l := by
  induction l with
  | nil => rfl
  | cons c cs ih =>
    simp only [List.mem_cons, not_or] at hl
    have hc : c ≠ LF := fun e => hl.1 e.symm
    simp only [line_content, List.takeWhile_cons] at ih ⊢
    simp [hc, ih hl.2]

theorem spec_lines_unlines (ls : List (List Nat)) (tail : List Nat)
    (hls : ∀ l ∈ ls, LF ∉ l) (ht : LF ∉ tail) :
    spec_lines (unlines ls ++ tail) = ls ++ (if tail = [] then [] else [tail]) := by
  rw [spec_lines, file_lines_unlines ls tail hls ht, List.map_append, List.map_map]
  congr 1
  · conv_rhs => rw [← List.map_id ls]
    apply List.map_congr_left
    intro l hl
    simpa using line_content_line (hls l hl)
  · by_cases h : tail = []
    · simp [h]
    · simp [h, line_content_self ht]

theorem lf_not_mem_line_content (l : List Nat) : LF ∉ line_content l := by
  intro h
  have := List.mem_takeWhile_imp h
  simp at this

theorem lf_not_mem_spec_lines (f : List Nat) : ∀ l ∈ spec_lines f, LF ∉ l := by
  intro l hl
  obtain ⟨l', _, rfl⟩ := List.mem_map.1 hl
  exact lf_not_mem_line_content l'

/-! ## The writing loop -/

theorem write_loop_freed (o : Nat → Int) (head : line_list) (st : write_state) :
    (write_loop o head st).freed = st.freed + head.length := by
  induction head generalizing st with
  | nil => simp [write_loop]
  | cons entry next ih =>
    simp only [write_loop, List.length_cons]
    rw [ih]
    cases entry.textline with
    | none => simp; omega
    | some buf =>
      by_cases h : st.write_error ≠ EOF
      · simp [h, fputs]; omega
      · simp [h]; omega

theorem write_loop_all_ok {o : Nat → Int} (ho : ∀ k, o k ≠ EOF) (head : line_list)
    (st : write_state) (hst : st.write_error ≠ EOF) :
    (write_loop o head st).written = st.written ++ store_text head
      ∧ (write_loop o head st).write_error ≠ EOF := by
  induction head generalizing st with
  | nil => simp [write_loop, store_text, hst]
  | cons entry next ih =>
    cases hentry : entry.textline with
    | none =>
      have := ih { st with freed := st.freed + 1 } hst
      simp only [write_loop, hentry]
      simpa [store_text, node_text, hentry] using this
    | some buf =>
      have hk := ho st.attempts.length
      have := ih { (fputs o buf.bytes st) with freed := (fputs o buf.bytes st).freed + 1 }
        (by simpa [fputs] using hk)
      simp only [write_loop, hentry, hst, ne_eq, not_false_eq_true, if_true]
      simpa [store_text, node_text, hentry, fputs, hk] using this

theorem write_reversed_lines_written {w : World} {filename : Option String}
    (h : writes_succeed w filename) (head : line_list) :
    (write_reversed_lines w head filename).state.written = store_text head
      ∧ (write_reversed_lines w head filename).status = EXIT_SUCCESS := by
  have hstart : write_start.write_error ≠ EOF := by decide
  cases filename with
  | none =>
    have := write_loop_all_ok h.1 head write_start hstart
    simp only [write_reversed_lines]
    refine ⟨by simpa [write_start] using this.1, ?_⟩
    simp only [World.log]
    rw [if_pos this.2]
  | some name =>
    have hc := h.2 name rfl
    have := write_loop_all_ok h.1 head write_start hstart
    simp only [write_reversed_lines, fopen_w, World.log, hc, if_true]
    refine ⟨by simpa [write_start] using this.1, ?_⟩
    rw [if_pos this.2]

/-! ## The reader never fails -/

theorem read_loop_total (fuel : Nat) (s : List Nat) (head : line_list) (hf : s.length < fuel) :
    ∃ r, read_loop fuel s head = some r := by
  induction fuel generalizing s head with
  | zero => omega
  | succ f ih =>
    cases s with
    | nil => exact ⟨head, rfl⟩
    | cons c s =>
      rw [read_loop_step f (by simp)]
      apply ih
      have := fgets_chars_rest_lt (MAX_LINE_LEN - 2 - 1) c s
      have e : MAX_LINE_LEN - 2 - 1 + 1 = MAX_LINE_LEN - 2 := by decide
      rw [e] at this
      simp only [List.length_cons] at hf this
      omega

theorem read_loop_textline (fuel : Nat) (s : List Nat) (head r : line_list)
    (hr : read_loop fuel s head = some r) (hh : ∀ n ∈ head, n.textline ≠ none) :
    ∀ n ∈ r, n.textline ≠ none := by
  induction fuel generalizing s head with
  | zero => simp [read_loop] at hr
  | succ f ih =>
    cases s with
    | nil =>
      rw [read_loop_nil] at hr
      cases hr
      exact hh
    | cons c s =>
      rw [read_loop_step f (by simp)] at hr
      apply ih _ _ hr
      intro n hn
      simp only [add_text_line_as_first_list_element, List.mem_cons] at hn
      rcases hn with rfl | hn
      · simp
      · exact hh n hn

/-- Every element of the list the reading loop builds is made from a string
without NUL byte of at most `MAX_LINE_LEN - 2` characters: its buffer holds
the string and two NUL bytes. -/
theorem read_loop_node_of (fuel : Nat) (s : List Nat) (head r : line_list)
    (hr : read_loop fuel s head = some r) (hh : ∀ n ∈ head, ∃ t, n = node_of t ∧ 0 ∉ t) :
    ∀ n ∈ r, ∃ t, n = node_of t ∧ 0 ∉ t := by
  induction fuel generalizing s head with
  | zero => simp [read_loop] at hr
  | succ f ih =>
    cases s with
    | nil =>
      rw [read_loop_nil] at hr
      cases hr
      exact hh
    | cons c s =>
      have hlen : strlen ((fgets_chars (MAX_LINE_LEN - 2) (c :: s)).1 ++ [0])
          ≤ MAX_LINE_LEN - 2 :=
        @strlen_fgets (MAX_LINE_LEN - 1) (c :: s) _ _ (fgets_cons _ c s)
      rw [read_loop_step f (by simp), add_text_line_short head hlen] at hr
      apply ih _ _ hr
      intro n hn
      rcases List.mem_cons.1 hn with rfl | hn
      · exact ⟨_, rfl, nul_not_mem_cstr _⟩
      · exact hh n hn

/-- The fix-up succeeds on a list of elements made by the reader. -/
theorem add_linefeed_total {p_list : line_list}
    (h : ∀ n ∈ p_list, ∃ t, n = node_of t ∧ 0 ∉ t) :
    ∃ r, add_linefeed_at_last_line p_list = some r ∧ r.length = p_list.length
      ∧ ∀ n ∈ r, n.textline ≠ none := by
  cases p_list with
  | nil => exact ⟨[], rfl, rfl, by simp⟩
  | cons entry next =>
    obtain ⟨t, rfl, h0⟩ := h entry (List.mem_cons_self _ _)
    refine ⟨_, add_linefeed_node_of next h0, by simp, ?_⟩
    intro n hn
    rcases List.mem_cons.1 hn with rfl | hn
    · split <;> simp [node_of, node_with_linefeed]
    · obtain ⟨t', rfl, _⟩ := h n (List.mem_cons_of_mem _ hn)
      simp [node_of]

/-! ## Reading and writing a file of short lines -/

theorem store_text_cons (entry : line_list_t) (next : line_list) :
    store_text (entry :: next) = node_text entry ++ store_text next := by
  simp [store_text]

theorem store_text_append (a b : line_list) :
    store_text (a ++ b) = store_text a ++ store_text b := by
  simp [store_text]

theorem store_text_lines (ls : List (List Nat)) (h0 : ∀ l ∈ ls, 0 ∉ l) :
    store_text (ls.map (fun l => node_of (l ++ [LF]))) = unlines ls := by
  induction ls with
  | nil => rfl
  | cons l ls ih =>
    have h1 : 0 ∉ l ++ [LF] := by simp [h0 l (List.mem_cons_self _ _), LF]
    rw [List.map_cons, store_text_cons, node_text_node_of h1,
      ih (fun l' h' => h0 l' (List.mem_cons_of_mem _ h'))]
    simp [unlines]

/-- The list the fix-up makes of the list read from a file of short lines. -/
theorem add_linefeed_read (ls : List (List Nat)) (tail : List Nat)
    (hls : ∀ l ∈ ls, 0 ∉ l) (h0 : 0 ∉ tail) (hl : LF ∉ tail) :
    add_linefeed_at_last_line
        ((if tail = [] then [] else [node_of tail])
          ++ (ls.map (fun l => node_of (l ++ [LF]))).reverse)
      = some ((if tail = [] then [] else [node_with_linefeed tail])
          ++ (ls.map (fun l => node_of (l ++ [LF]))).reverse) := by
  by_cases ht : tail = []
  · simp only [ht, if_true, List.nil_append]
    rw [← List.map_reverse]
    cases hrev : ls.reverse with
    | nil => rfl
    | cons l rest =>
      have hmem : l ∈ ls := by
        have : l ∈ ls.reverse := by rw [hrev]; exact List.mem_cons_self _ _
        exact List.mem_reverse.1 this
      have h1 : 0 ∉ l ++ [LF] := by simp [hls l hmem, LF]
      rw [List.map_cons, add_linefeed_node_of _ h1]
      simp
  · simp only [ht, if_false, List.singleton_append]
    rw [add_linefeed_node_of _ h0]
    simp [hl]

theorem read_text_lines_unlines {w : World} {name : String} (ls : List (List Nat))
    (tail : List Nat) (hfile : w.files name = some (unlines ls ++ tail))
    (hls : ∀ l ∈ ls, 0 ∉ l ∧ LF ∉ l ∧ l.length + 1 ≤ MAX_LINE_LEN - 2)
    (h0 : 0 ∉ tail) (hl : LF ∉ tail) (hlen : tail.length ≤ MAX_LINE_LEN - 2) :
    read_text_lines_from_file w (some name)
      = some ((if tail = [] then [] else [node_with_linefeed tail])
            ++ (ls.map (fun l => node_of (l ++ [LF]))).reverse,
          (w.log (Event.call Func.read_text_lines_from_file)).log
            (Event.fopen (some name) Mode.r true)) := by
  have hfuel : ls.length + (if tail = [] then 0 else 1) < (unlines ls ++ tail).length + 1 := by
    have h1 : ls.length ≤ (unlines ls).length := by
      clear hfile hls
      induction ls with
      | nil => simp
      | cons l ls ih => simp only [unlines, List.length_cons, List.length_append] at ih ⊢; omega
    have h2 : (if tail = [] then 0 else 1) ≤ tail.length := by
      cases tail <;> simp
    simp only [List.length_append]
    omega
  have hread := read_loop_unlines ls ((unlines ls ++ tail).length + 1) [] hfuel hls h0 hl hlen
  have hfix := add_linefeed_read ls tail (fun l h => (hls l h).1) h0 hl
  simp only [List.append_nil] at hread
  simp only [read_text_lines_from_file, fopen_r, World.log, Option.bind, hfile, hread, hfix,
    Option.isSome]

theorem store_text_read (ls : List (List Nat)) (tail : List Nat)
    (hls : ∀ l ∈ ls, 0 ∉ l) (h0 : 0 ∉ tail) :
    store_text ((if tail = [] then [] else [node_with_linefeed tail])
        ++ (ls.map (fun l => node_of (l ++ [LF]))).reverse)
      = unlines ((ls ++ (if tail = [] then [] else [tail])).reverse) := by
  rw [store_text_append, ← List.map_reverse,
    store_text_lines ls.reverse (fun l h => hls l (List.mem_reverse.1 h)), List.reverse_append,
    unlines_append]
  congr 1
  by_cases ht : tail = []
  · simp [ht, store_text, unlines]
  · simp [ht, store_text_cons, node_text_node_with_linefeed h0, unlines, store_text]

/-- The hypotheses on a file, carried over to its decomposition into lines. -/
theorem short_lines_unlines {ls : List (List Nat)} {tail : List Nat}
    (hls : ∀ l ∈ ls, LF ∉ l) (ht : LF ∉ tail) (h0 : 0 ∉ unlines ls ++ tail)
    (hlen : ∀ l ∈ file_lines (unlines ls ++ tail), l.length ≤ MAX_LINE_LEN - 2) :
    (∀ l ∈ ls, 0 ∉ l ∧ LF ∉ l ∧ l.length + 1 ≤ MAX_LINE_LEN - 2) ∧ 0 ∉ tail
      ∧ tail.length ≤ MAX_LINE_LEN - 2 := by
  rw [file_lines_unlines ls tail hls ht] at hlen
  refine ⟨fun l hl => ⟨?_, hls l hl, ?_⟩, ?_, ?_⟩
  · intro hx
    exact h0 (List.mem_append_left _ (mem_unlines_of_mem hl hx))
  · have := hlen (l ++ [LF]) (List.mem_append_left _ (List.mem_map.2 ⟨l, hl, rfl⟩))
    simpa using this
  · intro hx
    exact h0 (List.mem_append_right _ hx)
  · by_cases h : tail = []
    · simp [h]
    · exact hlen tail (List.mem_append_right _ (by simp [h]))

/-- What the reader and the writer deliver for a file without NUL bytes whose
lines have at most `MAX_LINE_LEN - 2` bytes: the texts of the lines in reverse
order, a line-feed after each. -/
theorem reversal_output_eq {w : World} {name : String} {filename : Option String}
    {file : List Nat} (hfile : w.files name = some file) (h0 : 0 ∉ file)
    (hlen : ∀ l ∈ file_lines file, l.length ≤ MAX_LINE_LEN - 2)
    (hw : writes_succeed w filename) :
    reversal_output w name filename = some (unlines (spec_lines file).reverse) := by
  obtain ⟨ls, tail, rfl, hls, ht⟩ := exists_unlines file
  obtain ⟨h1, h2, h3⟩ := short_lines_unlines hls ht h0 hlen
  have hread := read_text_lines_unlines ls tail hfile h1 h2 ht h3
  have hw1 : writes_succeed
      ((w.log (Event.call Func.read_text_lines_from_file)).log
        (Event.fopen (some name) Mode.r true)) filename := hw
  have hout := (write_reversed_lines_written hw1
    ((if tail = [] then [] else [node_with_linefeed tail])
      ++ (ls.map (fun l => node_of (l ++ [LF]))).reverse)).1
  simp only [reversal_output, hread, hout]
  rw [store_text_read ls tail (fun l h => (h1 l h).1) h2, spec_lines_unlines ls tail hls ht]

/-! ## A line longer than `fgets` can take at once -/

/-- When the stream starts with `MAX_LINE_LEN - 2` bytes none of which is a
line-feed or NUL, these bytes become a list element of their own and reading
goes on behind them. -/
theorem read_loop_block (fuel : Nat) {b : List Nat} (rest : List Nat) (head : line_list)
    (hb : b.length = MAX_LINE_LEN - 2) (hb0 : 0 ∉ b) (hbl : LF ∉ b) :
    read_loop (fuel + 1) (b ++ rest) head = read_loop fuel rest (node_of b :: head) := by
  have hne : b ++ rest ≠ [] := by
    intro h
    have := congrArg List.length h
    simp only [List.length_append, hb, MAX_LINE_LEN, List.length_nil] at this
    omega
  rw [read_loop_step _ hne, fgets_chars_block rest hbl hb, add_text_line_piece head hb0 (by omega)]

theorem add_linefeed_append {p q : line_list} (more : line_list)
    (h : add_linefeed_at_last_line p = some q) (hne : p ≠ []) :
    add_linefeed_at_last_line (p ++ more) = some (q ++ more) := by
  cases p with
  | nil => exact absurd rfl hne
  | cons entry next =>
    cases hentry : entry.textline with
    | none => simp [add_linefeed_at_last_line, hentry] at h
    | some buf =>
      simp only [add_linefeed_at_last_line, hentry, List.cons_append] at h ⊢
      by_cases h0 : 0 ∈ buf.bytes
      · by_cases hi : linefeed_scan (cstr buf.bytes) 0 = strlen buf.bytes
        · by_cases hroom : strlen buf.bytes + 2 ≤ buf.capacity
          · simp only [h0, hi, hroom, if_true] at h ⊢
            cases h
            rfl
          · simp [h0, hi, hroom] at h
        · simp only [h0, hi, if_true, if_false] at h ⊢
          cases h
          rfl
      · simp [h0] at h

/-- The list read from a file that starts with a block of `MAX_LINE_LEN - 2`
bytes without line-feed, followed by short lines. -/
theorem read_text_lines_block {w : World} {name : String} {b : List Nat}
    (ls : List (List Nat)) (tail : List Nat)
    (hfile : w.files name = some (b ++ (unlines ls ++ tail)))
    (hb : b.length = MAX_LINE_LEN - 2) (hb0 : 0 ∉ b) (hbl : LF ∉ b)
    (hne : unlines ls ++ tail ≠ [])
    (hls : ∀ l ∈ ls, 0 ∉ l ∧ LF ∉ l ∧ l.length + 1 ≤ MAX_LINE_LEN - 2)
    (h0 : 0 ∉ tail) (hl : LF ∉ tail) (hlen : tail.length ≤ MAX_LINE_LEN - 2) :
    read_text_lines_from_file w (some name)
      = some ((if tail = [] then [] else [node_with_linefeed tail])
            ++ (ls.map (fun l => node_of (l ++ [LF]))).reverse ++ [node_of b],
          (w.log (Event.call Func.read_text_lines_from_file)).log
            (Event.fopen (some name) Mode.r true)) := by
  have hfuel : ls.length + (if tail = [] then 0 else 1) < (unlines ls ++ tail).length + 1 := by
    have h1 : ls.length ≤ (unlines ls).length := by
      clear hfile hls hne
      induction ls with
      | nil => simp
      | cons l ls ih => simp only [unlines, List.length_cons, List.length_append] at ih ⊢; omega
    have h2 : (if tail = [] then 0 else 1) ≤ tail.length := by
      cases tail <;> simp
    simp only [List.length_append]
    omega
  have hM : MAX_LINE_LEN = 32766 := rfl
  have hlenfile : (b ++ (unlines ls ++ tail)).length + 1
      = ((unlines ls ++ tail).length + 32764) + 1 := by
    rw [List.length_append, hb, hM]
    omega
  have hread := read_loop_unlines ls ((unlines ls ++ tail).length + 32764)
    [node_of b] (by omega) hls h0 hl hlen
  have hfix := add_linefeed_read ls tail (fun l h => (hls l h).1) h0 hl
  have hne2 : (if tail = [] then [] else [node_of tail])
      ++ (ls.map (fun l => node_of (l ++ [LF]))).reverse ≠ [] := by
    by_cases ht : tail = []
    · subst ht
      cases ls with
      | nil => simp [unlines] at hne
      | cons l ls => simp
    · simp [ht]
  have hfix2 := add_linefeed_append [node_of b] hfix hne2
  simp only [read_text_lines_from_file, fopen_r, World.log, Option.bind, hfile, hlenfile,
    read_loop_block _ _ _ hb hb0 hbl, hread, hfix2, Option.isSome]

/-- What the reader and the writer deliver for such a file: the block comes
last, behind the reversed lines that followed it. -/
theorem reversal_output_block {w : World} {name : String} {filename : Option String}
    {b : List Nat} (ls : List (List Nat)) (tail : List Nat)
    (hfile : w.files name = some (b ++ (unlines ls ++ tail)))
    (hb : b.length = MAX_LINE_LEN - 2) (hb0 : 0 ∉ b) (hbl : LF ∉ b)
    (hne : unlines ls ++ tail ≠ [])
    (hls : ∀ l ∈ ls, 0 ∉ l ∧ LF ∉ l ∧ l.length + 1 ≤ MAX_LINE_LEN - 2)
    (h0 : 0 ∉ tail) (hl : LF ∉ tail) (hlen : tail.length ≤ MAX_LINE_LEN - 2)
    (hw : writes_succeed w filename) :
    reversal_output w name filename
      = some (unlines ((ls ++ (if tail = [] then [] else [tail])).reverse) ++ b) := by
  have hread := read_text_lines_block ls tail hfile hb hb0 hbl hne hls h0 hl hlen
  have hw1 : writes_succeed
      ((w.log (Event.call Func.read_text_lines_from_file)).log
        (Event.fopen (some name) Mode.r true)) filename := hw
  have hout := (write_reversed_lines_written hw1
    ((if tail = [] then [] else [node_with_linefeed tail])
      ++ (ls.map (fun l => node_of (l ++ [LF]))).reverse ++ [node_of b])).1
  simp only [reversal_output, hread, hout]
  rw [store_text_append, store_text_read ls tail (fun l h => (hls l h).1) h0]
  simp [store_text, node_text_node_of hb0]

theorem reversal_output_unlines {w : World} {name : String} {filename : Option String}
    (ls : List (List Nat)) (tail : List Nat)
    (hfile : w.files name = some (unlines ls ++ tail))
    (hls : ∀ l ∈ ls, 0 ∉ l ∧ LF ∉ l ∧ l.length + 1 ≤ MAX_LINE_LEN - 2)
    (h0 : 0 ∉ tail) (hl : LF ∉ tail) (hlen : tail.length ≤ MAX_LINE_LEN - 2)
    (hw : writes_succeed w filename) :
    reversal_output w name filename
      = some (unlines ((ls ++ (if tail = [] then [] else [tail])).reverse)) := by
  have hread := read_text_lines_unlines ls tail hfile hls h0 hl hlen
  have hw1 : writes_succeed
      ((w.log (Event.call Func.read_text_lines_from_file)).log
        (Event.fopen (some name) Mode.r true)) filename := hw
  have hout := (write_reversed_lines_written hw1
    ((if tail = [] then [] else [node_with_linefeed tail])
      ++ (ls.map (fun l => node_of (l ++ [LF]))).reverse)).1
  simp only [reversal_output, hread, hout]
  rw [store_text_read ls tail (fun l h => (hls l h).1) h0]

/-! ## Facts on the sample files -/

theorem long_block_length : long_block.length = MAX_LINE_LEN - 2 := by
  simp [long_block]

theorem nul_not_mem_long_block : 0 ∉ long_block := by
  simp [long_block, List.mem_replicate]

theorem lf_not_mem_long_block : LF ∉ long_block := by
  simp [long_block, List.mem_replicate, LF]

theorem one_file_world_files (content : List Nat) :
    (one_file_world content).files "in" = some content := by
  simp [one_file_world]

theorem one_file_world_writes (content : List Nat) (filename : Option String) :
    writes_succeed (one_file_world content) filename :=
  ⟨fun _ => by simp [one_file_world, EOF], fun _ _ => rfl⟩

theorem mem_unlines {ls : List (List Nat)} {x : Nat} (h : x ∈ unlines ls) :
    x = LF ∨ ∃ l ∈ ls, x ∈ l := by
  induction ls with
  | nil => simp [unlines] at h
  | cons l ls ih =>
    simp only [unlines, List.mem_append, List.mem_cons] at h
    rcases h with h | h | h
    · exact Or.inr ⟨l, List.mem_cons_self _ _, h⟩
    · exact Or.inl h
    · rcases ih h with h' | ⟨l', hl', hx⟩
      · exact Or.inl h'
      · exact Or.inr ⟨l', List.mem_cons_of_mem _ hl', hx⟩

theorem mem_of_mem_spec_lines {f l : List Nat} {x : Nat} (hl : l ∈ spec_lines f) (hx : x ∈ l) :
    x ∈ f := by
  obtain ⟨ls, tail, rfl, hls, ht⟩ := exists_unlines f
  rw [spec_lines_unlines ls tail hls ht] at hl
  rcases List.mem_append.1 hl with h | h
  · exact List.mem_append_left _ (mem_unlines_of_mem h hx)
  · by_cases htail : tail = []
    · simp [htail] at h
    · simp only [htail, if_false, List.mem_singleton] at h
      subst h
      exact List.mem_append_right _ hx

theorem unlines_getLast (ls : List (List Nat)) (h : ls ≠ []) :
    (unlines ls).getLast? = some LF := by
  induction ls with
  | nil => exact absurd rfl h
  | cons l ls ih =>
    cases ls with
    | nil => simp [unlines, List.getLast?_append, List.getLast?_cons_cons]
    | cons l' ls' =>
      have := ih (by simp)
      have hne : unlines (l' :: ls') ≠ [] := by cases l' <;> simp [unlines]
      obtain ⟨c, cs, hcs⟩ := List.exists_cons_of_ne_nil hne
      rw [unlines, List.getLast?_append, hcs] 
      rw [hcs] at this
      simp [List.getLast?_cons_cons, this]

/-! ## The writing loop and the error sentinel -/

/-- Once `write_error` is `EOF` the loop only frees list elements. -/
theorem write_loop_after_error (o : Nat → Int) (head : line_list) (st : write_state)
    (h : st.write_error = EOF) :
    write_loop o head st = { st with freed := st.freed + head.length } := by
  induction head generalizing st with
  | nil => simp [write_loop]
  | cons entry next ih =>
    have hstep : (match entry.textline with
        | some buf => if st.write_error ≠ EOF then fputs o buf.bytes st else st
        | none => st) = st := by
      cases entry.textline with
      | none => rfl
      | some buf => simp [h]
    simp only [write_loop, hstep]
    rw [ih { st with freed := st.freed + 1 } h]
    simp only [List.length_cons, write_state.mk.injEq, true_and]
    omega

theorem write_invariant_freed (o : Nat → Int) (st : write_state) (n : Nat) :
    write_invariant o { st with freed := n } ↔ write_invariant o st := Iff.rfl

theorem write_invariant_start (o : Nat → Int) : write_invariant o write_start := by
  refine ⟨?_, rfl, ?_⟩
  · simp [write_start, EOF]
  · intro j hj
    simp [write_start] at hj

theorem write_invariant_fputs {o : Nat → Int} {st : write_state} (text : List Nat)
    (hinv : write_invariant o st) (hne : st.write_error ≠ EOF) :
    write_invariant o (fputs o text st) := by
  obtain ⟨h1, h2, h3⟩ := hinv
  have hnone : ∀ a ∈ st.attempts, a.2 ≠ EOF := by
    intro a ha he
    exact hne (h1.2 ⟨a, ha, he⟩)
  refine ⟨?_, ?_, ?_⟩
  · simp only [fputs, List.mem_append, List.mem_singleton]
    constructor
    · intro h
      exact ⟨_, Or.inr rfl, h⟩
    · rintro ⟨a, ha | ha, he⟩
      · exact absurd he (hnone a ha)
      · subst ha
        exact he
  · simp only [fputs, List.map_append, List.map_cons, List.map_nil, List.length_append,
      List.length_singleton, List.range_succ, h2]
  · intro j hj a ha
    simp only [fputs, List.length_append, List.length_singleton] at hj
    have hj' : j < st.attempts.length := by omega
    simp only [fputs] at ha
    rw [List.getElem?_append_left hj'] at ha
    exact hnone a (List.getElem?_mem ha)

theorem write_invariant_loop {o : Nat → Int} (head : line_list) {st : write_state}
    (hinv : write_invariant o st) : write_invariant o (write_loop o head st) := by
  induction head generalizing st with
  | nil => simpa [write_loop] using hinv
  | cons entry next ih =>
    simp only [write_loop]
    apply ih
    apply (write_invariant_freed o _ _).2
    cases entry.textline with
    | none => exact hinv
    | some buf =>
      by_cases h : st.write_error = EOF
      · simpa [h] using hinv
      · have := write_invariant_fputs buf.bytes hinv h
        simpa [h] using this

theorem store_texts_cons_some {entry : line_list_t} {buf : text_buffer} (next : line_list)
    (h : entry.textline = some buf) :
    store_texts (entry :: next) = cstr buf.bytes :: store_texts next := by
  simp [store_texts, List.filterMap_cons, h]

theorem store_texts_cons_none {entry : line_list_t} (next : line_list)
    (h : entry.textline = none) : store_texts (entry :: next) = store_texts next := by
  simp [store_texts, List.filterMap_cons, h]

/-- The texts passed to `fputs` are the first texts of the list, in order. -/
theorem write_loop_attempts (o : Nat → Int) (head : line_list) (st : write_state) :
    st.attempts.length ≤ (write_loop o head st).attempts.length
      ∧ (write_loop o head st).attempts.map (fun a => a.1)
          = st.attempts.map (fun a => a.1)
            ++ (store_texts head).take
                ((write_loop o head st).attempts.length - st.attempts.length) := by
  induction head generalizing st with
  | nil => simp [write_loop, store_texts]
  | cons entry next ih =>
    cases hentry : entry.textline with
    | none =>
      have := ih { st with freed := st.freed + 1 }
      simp only [write_loop, hentry, store_texts_cons_none next hentry]
      exact this
    | some buf =>
      by_cases herr : st.write_error = EOF
      · rw [write_loop_after_error o _ st herr]
        simp
      · have := ih { (fputs o buf.bytes st) with freed := (fputs o buf.bytes st).freed + 1 }
        simp only [write_loop, hentry, herr, ne_eq, not_false_eq_true, if_true,
          store_texts_cons_some next hentry]
        obtain ⟨h1, h2⟩ := this
        have hlen : (fputs o buf.bytes st).attempts.length = st.attempts.length + 1 := by
          simp [fputs]
        simp only [hlen] at h1 h2
        refine ⟨by omega, ?_⟩
        rw [h2]
        obtain ⟨k, hk⟩ : ∃ k, (write_loop o next
            { (fputs o buf.bytes st) with freed := (fputs o buf.bytes st).freed + 1 }
              ).attempts.length = st.attempts.length + 1 + k :=
          ⟨_, (Nat.add_sub_cancel' h1).symm⟩
        rw [hk]
        have e1 : st.attempts.length + 1 + k - (st.attempts.length + 1) = k := by omega
        have e2 : st.attempts.length + 1 + k - st.attempts.length = k + 1 := by omega
        rw [e1, e2]
        simp [fputs]

/-- When the loop ends without error, every text of the list was passed to
`fputs`. -/
theorem write_loop_attempts_all (o : Nat → Int) (head : line_list) (st : write_state)
    (hend : (write_loop o head st).write_error ≠ EOF) :
    (write_loop o head st).attempts.length = st.attempts.length + (store_texts head).length := by
  induction head generalizing st with
  | nil => simp [write_loop, store_texts]
  | cons entry next ih =>
    cases hentry : entry.textline with
    | none =>
      simp only [write_loop, hentry] at hend
      have := ih { st with freed := st.freed + 1 } hend
      simp only [write_loop, hentry, store_texts_cons_none next hentry]
      exact this
    | some buf =>
      by_cases herr : st.write_error = EOF
      · rw [write_loop_after_error o _ st herr] at hend
        exact absurd herr hend
      · simp only [write_loop, hentry, herr, ne_eq, not_false_eq_true, if_true] at hend
        have := ih { (fputs o buf.bytes st) with freed := (fputs o buf.bytes st).freed + 1 } hend
        simp only [write_loop, hentry, herr, ne_eq, not_false_eq_true, if_true,
          store_texts_cons_some next hentry]
        rw [this]
        simp [fputs]
        omega

theorem write_reversed_lines_open {w : World} {filename : Option String} (head : line_list)
    (h : ∀ name, filename = some name → w.creatable name = true) :
    (write_reversed_lines w head filename).opened = true
      ∧ (write_reversed_lines w head filename).state = write_loop w.fputs_result head write_start
      ∧ (write_reversed_lines w head filename).status
          = if (write_loop w.fputs_result head write_start).write_error ≠ EOF then EXIT_SUCCESS
            else EXIT_FAILURE := by
  cases filename with
  | none => simp [write_reversed_lines, World.log]
  | some name => simp [write_reversed_lines, fopen_w, World.log, h name rfl]

theorem write_reversed_lines_closed {w : World} {name : String} (head : line_list)
    (h : w.creatable name = false) :
    (write_reversed_lines w head (some name)).opened = false
      ∧ (write_reversed_lines w head (some name)).state = write_start
      ∧ (write_reversed_lines w head (some name)).status = EXIT_FAILURE
      ∧ (write_reversed_lines w head (some name)).world
          = (w.log (Event.call Func.write_reversed_lines)).log
              (Event.fopen (some name) Mode.w false) := by
  simp [write_reversed_lines, fopen_w, World.log, h]

/-! ## The reader as a whole -/

theorem read_loop_length (fuel : Nat) (s : List Nat) (head r : line_list)
    (hr : read_loop fuel s head = some r) :
    head.length ≤ r.length ∧ (s ≠ [] → head.length < r.length) := by
  induction fuel generalizing s head with
  | zero => simp [read_loop] at hr
  | succ f ih =>
    cases s with
    | nil =>
      rw [read_loop_nil] at hr
      cases hr
      simp
    | cons c s =>
      rw [read_loop_step f (by simp)] at hr
      have := (ih _ _ hr).1
      simp only [add_text_line_as_first_list_element, List.length_cons] at this
      exact ⟨by omega, fun _ => by omega⟩

/-- The reader returns on every file name: with the empty list when the file
cannot be opened or is empty, and with a non-empty list all of whose elements
hold a text otherwise. It changes nothing but the trace. -/
theorem read_text_lines_total (w : World) (filename : Option String) :
    ∃ head, read_text_lines_from_file w filename
        = some (head, (w.log (Event.call Func.read_text_lines_from_file)).log
            (Event.fopen filename Mode.r (filename.bind w.files).isSome))
      ∧ (head = [] ↔ filename.bind w.files = none ∨ filename.bind w.files = some [])
      ∧ ∀ n ∈ head, n.textline ≠ none := by
  cases hopen : filename.bind w.files with
  | none =>
    refine ⟨[], ?_, by simp, by simp⟩
    simp [read_text_lines_from_file, fopen_r, World.log, hopen]
  | some stream =>
    obtain ⟨p, hp⟩ := read_loop_total (stream.length + 1) stream [] (by omega)
    have hnodes := read_loop_node_of _ _ _ _ hp (by simp)
    obtain ⟨q, hq, hlen, hq2⟩ := add_linefeed_total hnodes
    refine ⟨q, ?_, ?_, hq2⟩
    · simp [read_text_lines_from_file, fopen_r, World.log, hopen, hp, hq]
    · have hl := read_loop_length _ _ _ _ hp
      constructor
      · intro hnil
        right
        subst hnil
        by_contra hne
        have := hl.2 (fun h => hne (by rw [h]))
        simp only [List.length_nil] at hlen this
        omega
      · intro h
        rcases h with h | h
        · cases h
        · cases h
          simp only [List.length_nil, Nat.zero_add] at hp
          rw [read_loop_nil] at hp
          cases hp
          simpa using hlen

/-! ## The writer and the world -/

theorem mem_fputs_events (st : write_state) (text : List Nat) (r : Int) :
    Event.fputs text r ∈ fputs_events st ↔ (text, r) ∈ st.attempts := by
  simp only [fputs_events, List.mem_map]
  constructor
  · rintro ⟨a, ha, he⟩
    cases a
    cases he
    exact ha
  · intro h
    exact ⟨_, h, rfl⟩

theorem mem_fputs_events_is_fputs {st : write_state} {e : Event} (h : e ∈ fputs_events st) :
    ∃ text r, e = Event.fputs text r := by
  obtain ⟨a, _, rfl⟩ := List.mem_map.1 h
  exact ⟨_, _, rfl⟩

/-- What `write_reversed_lines` leaves in the world. -/
theorem write_reversed_lines_world (w : World) (head : line_list) (filename : Option String) :
    ∃ evs, (write_reversed_lines w head filename).world.trace = w.trace ++ evs
      ∧ ((∃ name, Event.fopen name Mode.w false ∈ evs)
          ↔ (write_reversed_lines w head filename).opened = false)
      ∧ (∀ text r, Event.fputs text r ∈ evs
          ↔ (text, r) ∈ (write_reversed_lines w head filename).state.attempts) := by
  cases filename with
  | none =>
    refine ⟨Event.call Func.write_reversed_lines
      :: fputs_events (write_loop w.fputs_result head write_start), ?_, ?_, ?_⟩
    · simp [write_reversed_lines, World.log]
    · simp only [write_reversed_lines, World.log, List.mem_cons, reduceCtorEq, false_or]
      constructor
      · rintro ⟨name, h⟩
        obtain ⟨_, _, he⟩ := mem_fputs_events_is_fputs h
        cases he
      · intro h
        cases h
    · intro text r
      simp [write_reversed_lines, World.log, mem_fputs_events]
  | some name =>
    by_cases hc : w.creatable name = true
    · refine ⟨Event.call Func.write_reversed_lines :: Event.fopen (some name) Mode.w true
        :: (fputs_events (write_loop w.fputs_result head write_start) ++ [Event.fclose]),
        ?_, ?_, ?_⟩
      · simp [write_reversed_lines, fopen_w, World.log, hc]
      · simp only [write_reversed_lines, fopen_w, World.log, hc, if_true, List.mem_cons,
          List.mem_append, List.mem_singleton, reduceCtorEq, false_or, or_false,
          Event.fopen.injEq, Bool.true_eq_false, and_false]
        constructor
        · rintro ⟨name', h | h⟩
          · obtain ⟨_, _, he⟩ := mem_fputs_events_is_fputs h
            cases he
          · cases h
        · intro h
          cases h
      · intro text r
        simp [write_reversed_lines, fopen_w, World.log, hc, mem_fputs_events]
    · have hc' : w.creatable name = false := by simpa using hc
      refine ⟨[Event.call Func.write_reversed_lines, Event.fopen (some name) Mode.w false],
        ?_, ?_, ?_⟩
      · simp [write_reversed_lines, fopen_w, World.log, hc']
      · simp [write_reversed_lines, fopen_w, World.log, hc']
      · intro text r
        simp [write_reversed_lines, fopen_w, World.log, hc', write_start]

/-- The status of `write_reversed_lines` in terms of what the run did. -/
theorem write_reversed_lines_status (w : World) (head : line_list)
    (filename : Option String) :
    ((write_reversed_lines w head filename).status = EXIT_SUCCESS ↔
        (write_reversed_lines w head filename).opened = true
          ∧ ∀ a ∈ (write_reversed_lines w head filename).state.attempts, a.2 ≠ EOF)
      ∧ ((write_reversed_lines w head filename).status ≠ EXIT_SUCCESS →
          (write_reversed_lines w head filename).status = EXIT_FAILURE) := by
  by_cases hopen : ∀ name, filename = some name → w.creatable name = true
  · obtain ⟨h1, h2, h3⟩ := write_reversed_lines_open head hopen
    obtain ⟨i1, _, _⟩ := write_invariant_loop head (write_invariant_start w.fputs_result)
    rw [h1, h2, h3]
    by_cases h : (write_loop w.fputs_result head write_start).write_error = EOF
    · obtain ⟨a, ha, he⟩ := i1.1 h
      simp only [h, ne_eq, not_true_eq_false, if_false, true_and]
      refine ⟨⟨fun hc => absurd hc (by decide), fun hall => absurd he (hall a ha)⟩, ?_⟩
      simp
    · simp only [h, ne_eq, not_false_eq_true, if_true, true_and, not_true_eq_false,
        false_implies, and_true]
      refine ⟨fun _ a ha he => h (i1.2 ⟨a, ha, he⟩), fun _ => trivial⟩
  · have hname : ∃ name, filename = some name ∧ w.creatable name = false := by
      by_contra hcon
      apply hopen
      intro name hn
      by_contra hc
      exact hcon ⟨name, hn, by simpa using hc⟩
    obtain ⟨name, rfl, hc⟩ := hname
    obtain ⟨h1, h2, h3, _⟩ := write_reversed_lines_closed head hc
    rw [h1, h2, h3]
    simp [EXIT_FAILURE, EXIT_SUCCESS]

/-! ## The argument check -/

theorem check_no_source (w : World) (argv : List String) (h : argv.length ≤ 1) :
    check_command_line_arguments w argv
      = (EXIT_FAILURE,
          { w with trace := w.trace ++
              [Event.call Func.check_command_line_arguments,
                Event.printf Message.normal_color, Event.printf Message.usage,
                Event.printf Message.normal_color] }) := by
  simp [check_command_line_arguments, World.log, h]

theorem check_source_missing (w : World) (argv : List String) (h : 1 < argv.length)
    (hs : argv[1]?.bind w.files = none) :
    check_command_line_arguments w argv
      = (EXIT_FAILURE,
          { w with trace := w.trace ++
              [Event.call Func.check_command_line_arguments,
                Event.printf Message.normal_color, Event.fopen argv[1]? Mode.r false,
                Event.printf Message.normal_color, Event.printf Message.source_missing,
                Event.printf Message.normal_color] }) := by
  have h' : ¬ argv.length ≤ 1 := by omega
  simp only [check_command_line_arguments, World.log, fopen_r, h, h', hs, if_true, if_false,
    gt_iff_lt, Option.isSome, List.append_assoc, List.cons_append, List.nil_append]

theorem check_destination_exists (w : World) (argv : List String) (h : 1 < argv.length)
    {c d : List Nat} (hs : argv[1]?.bind w.files = some c)
    (hd : argv[2]?.bind w.files = some d) :
    check_command_line_arguments w argv
      = (EXIT_FAILURE,
          { w with trace := w.trace ++
              [Event.call Func.check_command_line_arguments,
                Event.printf Message.normal_color, Event.fopen argv[1]? Mode.r true,
                Event.fclose, Event.fopen argv[2]? Mode.r true, Event.fclose,
                Event.printf Message.normal_color, Event.printf Message.destination_exists,
                Event.printf Message.normal_color] }) := by
  have h' : ¬ argv.length ≤ 1 := by omega
  simp only [check_command_line_arguments, World.log, fopen_r, h, h', hs, hd, if_true,
    if_false, gt_iff_lt, Option.isSome, List.append_assoc, List.cons_append, List.nil_append]

theorem check_passed (w : World) (argv : List String) (h : 1 < argv.length)
    {c : List Nat} (hs : argv[1]?.bind w.files = some c)
    (hd : argv[2]?.bind w.files = none) :
    check_command_line_arguments w argv
      = (EXIT_SUCCESS,
          { w with trace := w.trace ++
              [Event.call Func.check_command_line_arguments,
                Event.printf Message.normal_color, Event.fopen argv[1]? Mode.r true,
                Event.fclose, Event.fopen argv[2]? Mode.r false] }) := by
  have h' : ¬ argv.length ≤ 1 := by omega
  simp only [check_command_line_arguments, World.log, fopen_r, h, h', hs, hd, if_true,
    if_false, gt_iff_lt, Option.isSome, List.append_assoc, List.cons_append, List.nil_append]

/-- The check passes exactly when a source is named and can be opened for
reading and the third entry of `argv` cannot. -/
theorem check_passed_iff (w : World) (argv : List String) :
    (check_command_line_arguments w argv).1 = EXIT_SUCCESS ↔
      1 < argv.length ∧ (∃ c, argv[1]?.bind w.files = some c)
        ∧ argv[2]?.bind w.files = none := by
  by_cases h : argv.length ≤ 1
  · rw [check_no_source w argv h]
    simp [EXIT_FAILURE, EXIT_SUCCESS]
    omega
  · have h1 : 1 < argv.length := by omega
    cases hs : argv[1]?.bind w.files with
    | none =>
      rw [check_source_missing w argv h1 hs]
      simp [EXIT_FAILURE, EXIT_SUCCESS]
    | some c =>
      cases hd : argv[2]?.bind w.files with
      | none =>
        rw [check_passed w argv h1 hs hd]
        simp [h1]
      | some d =>
        rw [check_destination_exists w argv h1 hs hd]
        simp [EXIT_FAILURE, EXIT_SUCCESS]

theorem exit_failure_ne_zero : EXIT_FAILURE ≠ 0 := by decide

theorem main_of_check_failed {w : World} {argv : List String} {w1 : World}
    (h : check_command_line_arguments w argv = (EXIT_FAILURE, w1)) :
    main w argv = some (EXIT_FAILURE, w1) := by
  simp [main, h, EXIT_FAILURE]

theorem main_of_check_passed {w : World} {argv : List String} {w1 : World}
    (h : check_command_line_arguments w argv = (EXIT_SUCCESS, w1)) :
    main w argv = reverse_file w1 argv := by
  simp [main, h, EXIT_SUCCESS]

/-! ## `reverse_file` -/

/-- The value and the world `reverse_file` gives, in terms of the list read. -/
theorem reverse_file_eq (w : World) (argv : List String) :
    ∃ head w1, read_text_lines_from_file (w.log (Event.call Func.reverse_file)) argv[1]?
        = some (head, w1)
      ∧ w1.files = w.files ∧ w1.creatable = w.creatable ∧ w1.fputs_result = w.fputs_result
      ∧ w1.trace = w.trace ++ [Event.call Func.reverse_file,
          Event.call Func.read_text_lines_from_file,
          Event.fopen argv[1]? Mode.r (argv[1]?.bind w.files).isSome]
      ∧ (head = [] ↔ argv[1]?.bind w.files = none ∨ argv[1]?.bind w.files = some [])
      ∧ (∀ n ∈ head, n.textline ≠ none)
      ∧ (head = [] → reverse_file w argv = some (EXIT_FAILURE, w1))
      ∧ (head ≠ [] → reverse_file w argv
          = some ((write_reversed_lines w1 head
                (if argv.length > 2 then argv[2]? else none)).status,
              (write_reversed_lines w1 head
                (if argv.length > 2 then argv[2]? else none)).world)) := by
  obtain ⟨head, hread, hnil, htext⟩ :=
    read_text_lines_total (w.log (Event.call Func.reverse_file)) argv[1]?
  refine ⟨head, _, hread, rfl, rfl, rfl, by simp [World.log], hnil, htext, ?_, ?_⟩
  · intro h
    subst h
    simp only [reverse_file, hread]
  · intro h
    cases head with
    | nil => exact absurd rfl h
    | cons e t =>
      simp only [reverse_file, hread]

/-! ## The status of the writer in terms of the values `fputs` returns -/

theorem write_loop_result (o : Nat → Int) (head : line_list) (j : Nat)
    (hj : j < (write_loop o head write_start).attempts.length) :
    ∃ a, (write_loop o head write_start).attempts[j]? = some a ∧ a.2 = o j := by
  obtain ⟨_, i2, _⟩ := write_invariant_loop head (write_invariant_start o)
  refine ⟨_, List.getElem?_eq_getElem hj, ?_⟩
  have := congrArg (fun l => l[j]?) i2
  simp only [List.getElem?_map, List.getElem?_eq_getElem hj, Option.map_some',
    List.getElem?_range hj] at this
  exact Option.some.inj this

theorem write_loop_error_iff (o : Nat → Int) (head : line_list) :
    (write_loop o head write_start).write_error = EOF ↔
      ∃ j, j < (write_loop o head write_start).attempts.length ∧ o j = EOF := by
  obtain ⟨i1, _, _⟩ := write_invariant_loop head (write_invariant_start o)
  rw [i1]
  constructor
  · rintro ⟨a, ha, he⟩
    obtain ⟨j, hj⟩ := List.mem_iff_getElem?.1 ha
    have hlt : j < (write_loop o head write_start).attempts.length := by
      by_contra hge
      rw [List.getElem?_eq_none (by omega)] at hj
      cases hj
    obtain ⟨a', ha', he'⟩ := write_loop_result o head j hlt
    rw [hj] at ha'
    cases ha'
    exact ⟨j, hlt, he'.symm.trans he⟩
  · rintro ⟨j, hj, he⟩
    obtain ⟨a, ha, he'⟩ := write_loop_result o head j hj
    exact ⟨a, List.getElem?_mem ha, he'.trans he⟩

theorem write_loop_attempts_le (o : Nat → Int) (head : line_list) :
    (write_loop o head write_start).attempts.length ≤ (store_texts head).length := by
  have h0 : write_start.attempts = [] := rfl
  have h := congrArg List.length (write_loop_attempts o head write_start).2
  simp only [h0, List.map_nil, List.nil_append, List.length_map, List.length_take,
    List.length_nil, Nat.sub_zero] at h
  omega

theorem write_loop_ok_iff (o : Nat → Int) (head : line_list) :
    (write_loop o head write_start).write_error ≠ EOF ↔
      ∀ j, j < (store_texts head).length → o j ≠ EOF := by
  constructor
  · intro h j hj he
    have h0 : write_start.attempts = [] := rfl
    have hall := write_loop_attempts_all o head write_start h
    simp only [h0, List.length_nil, Nat.zero_add] at hall
    exact h ((write_loop_error_iff o head).2 ⟨j, by omega, he⟩)
  · intro h herr
    obtain ⟨j, hj, he⟩ := (write_loop_error_iff o head).1 herr
    have := write_loop_attempts_le o head
    exact h j (by omega) he

theorem store_texts_length {head : line_list} (h : ∀ n ∈ head, n.textline ≠ none) :
    (store_texts head).length = head.length := by
  induction head with
  | nil => rfl
  | cons entry next ih =>
    have he := h entry (List.mem_cons_self _ _)
    cases hentry : entry.textline with
    | none => exact absurd hentry he
    | some buf =>
      rw [store_texts_cons_some next hentry]
      simp [ih (fun n hn => h n (List.mem_cons_of_mem _ hn))]

/-- The status of `write_reversed_lines` in terms of the world. -/
theorem write_reversed_lines_status_iff (w : World) (head : line_list)
    (filename : Option String) :
    (write_reversed_lines w head filename).status = EXIT_SUCCESS ↔
      (∀ name, filename = some name → w.creatable name = true)
        ∧ ∀ j, j < (store_texts head).length → w.fputs_result j ≠ EOF := by
  by_cases hopen : ∀ name, filename = some name → w.creatable name = true
  · obtain ⟨_, _, h3⟩ := write_reversed_lines_open head hopen
    rw [h3, ← write_loop_ok_iff]
    by_cases h : (write_loop w.fputs_result head write_start).write_error = EOF
    · simp only [h, ne_eq, not_true_eq_false, if_false, and_false, iff_false]
      decide
    · simp only [h, ne_eq, not_false_eq_true, if_true, and_true, true_iff]
      exact hopen
  · have hname : ∃ name, filename = some name ∧ w.creatable name = false := by
      by_contra hcon
      apply hopen
      intro name hn
      by_contra hc
      exact hcon ⟨name, hn, by simpa using hc⟩
    obtain ⟨name, rfl, hc⟩ := hname
    obtain ⟨_, _, h3, _⟩ := write_reversed_lines_closed head hc
    rw [h3]
    simp [EXIT_FAILURE, EXIT_SUCCESS, hc]

/-! ## The pieces of a file without NUL bytes -/

theorem fgets_chars_ne_nil (k c : Nat) (s : List Nat) :
    (fgets_chars (k + 1) (c :: s)).1 ≠ [] := by
  by_cases hc : c = LF
  · simp [fgets_chars, hc]
  · simp [fgets_chars, hc]

/-- The reading loop keeps every byte of a stream without NUL bytes: it puts
in front of the list one element for each piece `fgets` takes, and the texts of
these elements, last to first, make up the stream. -/
theorem read_loop_pieces (fuel : Nat) (s : List Nat) (head : line_list) (h0 : 0 ∉ s)
    (hf : s.length < fuel) :
    ∃ front, read_loop fuel s head = some (front ++ head)
      ∧ (front.reverse.map node_text).flatten = s
      ∧ (s ≠ [] → front ≠ [])
      ∧ ∀ n ∈ front,
          ∃ t, n = node_of t ∧ 0 ∉ t ∧ t ≠ [] ∧ t.length ≤ MAX_LINE_LEN - 2 := by
  induction fuel generalizing s head with
  | zero => omega
  | succ f ih =>
    cases s with
    | nil => exact ⟨[], rfl, rfl, fun h => absurd rfl h, by simp⟩
    | cons c s =>
      have happ := fgets_chars_append (MAX_LINE_LEN - 2) (c :: s)
      have hlen := fgets_chars_length_le (MAX_LINE_LEN - 2) (c :: s)
      have hne : (fgets_chars (MAX_LINE_LEN - 2) (c :: s)).1 ≠ [] :=
        fgets_chars_ne_nil (MAX_LINE_LEN - 2 - 1) c s
      have hlt : (fgets_chars (MAX_LINE_LEN - 2) (c :: s)).2.length < (c :: s).length :=
        fgets_chars_rest_lt (MAX_LINE_LEN - 2 - 1) c s
      have hp0 : 0 ∉ (fgets_chars (MAX_LINE_LEN - 2) (c :: s)).1 := by
        intro h
        apply h0
        rw [← happ]
        exact List.mem_append_left _ h
      have hr0 : 0 ∉ (fgets_chars (MAX_LINE_LEN - 2) (c :: s)).2 := by
        intro h
        apply h0
        rw [← happ]
        exact List.mem_append_right _ h
      obtain ⟨front, hread, htext, _, hall⟩ := ih (fgets_chars (MAX_LINE_LEN - 2) (c :: s)).2
        (node_of (fgets_chars (MAX_LINE_LEN - 2) (c :: s)).1 :: head) hr0 (by omega)
      refine ⟨front ++ [node_of (fgets_chars (MAX_LINE_LEN - 2) (c :: s)).1], ?_, ?_, ?_, ?_⟩
      · rw [read_loop_step f (by simp), add_text_line_piece head hp0 hlen, hread]
        simp
      · rw [List.reverse_append, List.map_append, List.flatten_append, htext]
        simp only [List.reverse_cons, List.reverse_nil, List.nil_append, List.map_cons,
          List.map_nil, List.flatten_cons, List.flatten_nil, List.append_nil,
          node_text_node_of hp0]
        exact happ
      · intro _
        simp
      · intro n hn
        rcases List.mem_append.1 hn with h | h
        · exact hall n h
        · simp only [List.mem_singleton] at h
          exact ⟨_, h, hp0, hne, hlen⟩

/-- The fix-up on a list whose first elements are pieces read from a file:
it adds at most a line-feed to the end of the text of the head. -/
theorem add_linefeed_pieces (front more : line_list) (hne : front ≠ [])
    (hall : ∀ n ∈ front,
      ∃ t, n = node_of t ∧ 0 ∉ t ∧ t ≠ [] ∧ t.length ≤ MAX_LINE_LEN - 2) :
    ∃ front', add_linefeed_at_last_line (front ++ more) = some (front' ++ more)
      ∧ front'.length = front.length
      ∧ ((front'.reverse.map node_text).flatten = (front.reverse.map node_text).flatten
          ∨ (front'.reverse.map node_text).flatten
              = (front.reverse.map node_text).flatten ++ [LF]) := by
  cases front with
  | nil => exact absurd rfl hne
  | cons entry next =>
    obtain ⟨t, rfl, h0, _, _⟩ := hall entry (List.mem_cons_self _ _)
    refine ⟨(if LF ∈ t then node_of t else node_with_linefeed t) :: next, ?_, by simp, ?_⟩
    · rw [List.cons_append, add_linefeed_node_of _ h0]
      rfl
    · by_cases hl : LF ∈ t
      · left
        simp [hl]
      · right
        simp [hl, node_text_node_of h0, node_text_node_with_linefeed h0]

/-- Reading the short lines a stream starts with. -/
theorem read_loop_lines (ls : List (List Nat)) (rest : List Nat) :
    ∀ (fuel : Nat) (head : line_list),
    (∀ l ∈ ls, 0 ∉ l ∧ LF ∉ l ∧ l.length + 1 ≤ MAX_LINE_LEN - 2) →
    read_loop (fuel + ls.length) (unlines ls ++ rest) head
      = read_loop fuel rest ((ls.map (fun l => node_of (l ++ [LF]))).reverse ++ head) := by
  induction ls with
  | nil =>
    intro fuel head _
    simp [unlines]
  | cons l ls ih =>
    intro fuel head hls
    have hl1 := hls l (List.mem_cons_self _ _)
    have hne : unlines (l :: ls) ++ rest ≠ [] := by
      cases l <;> simp [unlines]
    have hshape : unlines (l :: ls) ++ rest = l ++ LF :: (unlines ls ++ rest) := by
      simp [unlines]
    have hpiece0 : 0 ∉ l ++ [LF] := by simp [hl1.1, LF]
    have hpiecelen : (l ++ [LF]).length ≤ MAX_LINE_LEN - 2 := by simpa using hl1.2.2
    have hfuel : fuel + (l :: ls).length = (fuel + ls.length) + 1 := by
      simp only [List.length_cons]
      omega
    rw [hfuel, read_loop_step _ hne, hshape,
      fgets_chars_line _ hl1.2.1 (by have := hl1.2.2; omega),
      add_text_line_piece head hpiece0 hpiecelen,
      ih fuel _ (fun l' h' => hls l' (List.mem_cons_of_mem _ h'))]
    simp

/-! ## The texts of a list -/

theorem store_text_eq_flatten (head : line_list) :
    store_text head = (store_texts head).flatten := by
  induction head with
  | nil => rfl
  | cons entry next ih =>
    cases hentry : entry.textline with
    | none =>
      rw [store_text_cons, store_texts_cons_none next hentry, ih]
      simp [node_text, hentry]
    | some buf =>
      rw [store_text_cons, store_texts_cons_some next hentry, ih]
      simp [node_text, hentry]

/-- When every call succeeds, the texts passed to `fputs` are the texts of the
list. -/
theorem write_loop_attempts_eq {o : Nat → Int} (ho : ∀ k, o k ≠ EOF) (head : line_list) :
    (write_loop o head write_start).attempts.map (fun a => a.1) = store_texts head := by
  have hok := (write_loop_all_ok ho head write_start (by decide)).2
  have hall := write_loop_attempts_all o head write_start hok
  have hatt := (write_loop_attempts o head write_start).2
  have h0 : write_start.attempts = [] := rfl
  rw [h0] at hall hatt
  simp only [List.length_nil, Nat.zero_add, List.map_nil, List.nil_append,
    Nat.sub_zero] at hall hatt
  rw [hatt, hall, List.take_length]

/-! ## The terminator fix-up on any list -/

theorem strncpy_length (src : List Nat) (n : Nat) : (strncpy src n).length = n := by
  simp only [strncpy, strlen, List.length_append, List.length_take, List.length_replicate]
  omega

theorem nul_not_mem_take_cstr (src : List Nat) (n : Nat) : 0 ∉ (cstr src).take n :=
  fun h => nul_not_mem_cstr src (List.mem_of_mem_take h)

/-- The string in the bytes `strncpy` writes: the first `n` characters of the
source string. -/
theorem cstr_strncpy (src : List Nat) (n : Nat) : cstr (strncpy src n) = (cstr src).take n := by
  have h0 := nul_not_mem_take_cstr src n
  cases hk : n - strlen src with
  | zero => simp only [strncpy, hk, List.replicate_zero, List.append_nil, cstr_eq_self h0]
  | succ k =>
    simp only [strncpy, hk, List.replicate_succ]
    exact cstr_append_nul h0 _

theorem MIN_le_left (a b : Nat) : MIN a b ≤ a := by
  unfold MIN
  split <;> omega

theorem MIN_le_right (a b : Nat) : MIN a b ≤ b := by
  unfold MIN
  split <;> omega

theorem take_MIN_cstr (text : List Nat) :
    (cstr text).take (MIN (strlen text + BUFFER_FOR_LF) MAX_LINE_LEN)
      = (cstr text).take MAX_LINE_LEN := by
  unfold MIN
  split
  · rename_i h
    rw [List.take_of_length_le (by simp only [strlen, BUFFER_FOR_LF]; omega),
      List.take_of_length_le (by simp only [strlen, BUFFER_FOR_LF] at h; omega)]
  · rfl

/-! ## Where a piece holds a line-feed -/

/-- A piece taken by `fgets` holds a line-feed as its last byte at most. -/
theorem fgets_chars_lf_last (k : Nat) (s : List Nat) : LF ∉ (fgets_chars k s).1.dropLast := by
  induction k generalizing s with
  | zero => simp [fgets_chars]
  | succ k ih =>
    cases s with
    | nil => simp [fgets_chars]
    | cons c s =>
      by_cases hc : c = LF
      · simp [fgets_chars, hc]
      · have hc2 : ¬ LF = c := fun e => hc e.symm
        simp only [fgets_chars, hc, if_false]
        cases hp : (fgets_chars k s).1 with
        | nil => simp
        | cons d ds =>
          have := ih s
          rw [hp] at this
          rw [List.dropLast_cons_of_ne_nil (by simp)]
          simp only [List.mem_cons, not_or]
          exact ⟨hc2, this⟩

theorem read_loop_lf_last (fuel : Nat) (s : List Nat) (head r : line_list)
    (hr : read_loop fuel s head = some r) (h0 : 0 ∉ s)
    (hh : ∀ n ∈ head, LF ∉ (node_text n).dropLast) :
    ∀ n ∈ r, LF ∉ (node_text n).dropLast := by
  induction fuel generalizing s head with
  | zero => simp [read_loop] at hr
  | succ f ih =>
    cases s with
    | nil =>
      rw [read_loop_nil] at hr
      cases hr
      exact hh
    | cons c s =>
      have happ := fgets_chars_append (MAX_LINE_LEN - 2) (c :: s)
      have hlen := fgets_chars_length_le (MAX_LINE_LEN - 2) (c :: s)
      have hp0 : 0 ∉ (fgets_chars (MAX_LINE_LEN - 2) (c :: s)).1 := by
        intro h
        apply h0
        rw [← happ]
        exact List.mem_append_left _ h
      have hr0 : 0 ∉ (fgets_chars (MAX_LINE_LEN - 2) (c :: s)).2 := by
        intro h
        apply h0
        rw [← happ]
        exact List.mem_append_right _ h
      rw [read_loop_step f (by simp), add_text_line_piece head hp0 hlen] at hr
      apply ih _ _ hr hr0
      intro n hn
      rcases List.mem_cons.1 hn with rfl | hn
      · rw [node_text_node_of hp0]
        exact fgets_chars_lf_last _ _
      · exact hh n hn

/-- The list the reading loop builds from a file without NUL bytes: one
element for each piece, the pieces making up the file, each of them non-empty,
of at most `MAX_LINE_LEN - 2` bytes, with a line-feed as last byte at most. -/
theorem read_loop_file (file : List Nat) (h0 : 0 ∉ file) :
    ∃ p_head, read_loop (file.length + 1) file [] = some p_head
      ∧ (p_head.reverse.map node_text).flatten = file
      ∧ (file ≠ [] → p_head ≠ [])
      ∧ ∀ n ∈ p_head, ∃ t, n = node_of t ∧ node_text n = t ∧ 0 ∉ t ∧ t ≠ []
          ∧ t.length ≤ MAX_LINE_LEN - 2 ∧ LF ∉ t.dropLast := by
  obtain ⟨front, hread, htext, hne, hall⟩ := read_loop_pieces (file.length + 1) file [] h0
    (by omega)
  rw [List.append_nil] at hread
  have hlf := read_loop_lf_last _ _ _ _ hread h0 (by simp)
  refine ⟨front, hread, htext, hne, ?_⟩
  intro n hn
  obtain ⟨t, rfl, ht0, htne, htlen⟩ := hall n hn
  have := hlf _ hn
  rw [node_text_node_of ht0] at this
  exact ⟨t, rfl, node_text_node_of ht0, ht0, htne, htlen, this⟩

/-! ## The output as a rearrangement of the input -/

theorem lf_mem_iff_getLast {t : List Nat} (h : LF ∉ t.dropLast) :
    LF ∈ t ↔ t.getLast? = some LF := by
  constructor
  · intro hmem
    cases hlast : t.getLast? with
    | none =>
      rw [List.getLast?_eq_none_iff] at hlast
      subst hlast
      cases hmem
    | some a =>
      have hsplit := List.dropLast_append_getLast? a (by rw [hlast]; rfl)
      rw [← hsplit] at hmem
      rcases List.mem_append.1 hmem with h1 | h1
      · exact absurd h1 h
      · simp only [List.mem_singleton] at h1
        rw [h1]
  · intro hlast
    exact List.mem_of_getLast?_eq_some hlast

theorem store_text_perm_reverse (l : line_list) :
    List.Perm (store_text l) (l.reverse.map node_text).flatten := by
  unfold store_text
  exact List.Perm.flatten (List.Perm.map node_text (List.reverse_perm l).symm)

/-- The bytes delivered for a file without NUL bytes: the last piece, with a
line-feed when the file does not end with one, then the texts of the other
pieces, which together with the last piece make up the file. -/
theorem reversal_output_pieces {w : World} {name : String} {filename : Option String}
    {file : List Nat} (hfile : w.files name = some file) (hne : file ≠ []) (h0 : 0 ∉ file)
    (hw : writes_succeed w filename) :
    ∃ t next, file = (next.reverse.map node_text).flatten ++ t
      ∧ reversal_output w name filename
          = some (t ++ (if file.getLast? = some LF then [] else [LF]) ++ store_text next) := by
  obtain ⟨p_head, hread, htext, hnonempty, hall⟩ := read_loop_file file h0
  cases p_head with
  | nil => exact absurd rfl (hnonempty hne)
  | cons n next =>
    obtain ⟨t, rfl, _, ht0, htne, _, htlf⟩ := hall _ (List.mem_cons_self _ _)
    have hsplit : file = (next.reverse.map node_text).flatten ++ t := by
      rw [← htext]
      simp [node_text_node_of ht0]
    have hlast : file.getLast? = t.getLast? := by
      rw [hsplit, List.getLast?_append]
      cases hl : t.getLast? with
      | none =>
        rw [List.getLast?_eq_none_iff] at hl
        exact absurd hl htne
      | some a => rfl
    have hfix := add_linefeed_node_of next ht0
    have hreadfile : read_text_lines_from_file w (some name)
        = some ((if LF ∈ t then node_of t else node_with_linefeed t) :: next,
            (w.log (Event.call Func.read_text_lines_from_file)).log
              (Event.fopen (some name) Mode.r true)) := by
      simp [read_text_lines_from_file, fopen_r, World.log, hfile, hread, hfix]
    have hw1 : writes_succeed
        ((w.log (Event.call Func.read_text_lines_from_file)).log
          (Event.fopen (some name) Mode.r true)) filename := hw
    have hout := (write_reversed_lines_written hw1
      ((if LF ∈ t then node_of t else node_with_linefeed t) :: next)).1
    refine ⟨t, next, hsplit, ?_⟩
    simp only [reversal_output, hreadfile, hout, store_text_cons]
    rw [hlast]
    by_cases hl : LF ∈ t
    · have := (lf_mem_iff_getLast htlf).1 hl
      simp [hl, this, node_text_node_of ht0]
    · have : ¬ t.getLast? = some LF := fun h => hl ((lf_mem_iff_getLast htlf).2 h)
      simp [hl, this, node_text_node_with_linefeed ht0]

/-! ## C1: the lines come out in reversed order -/

/-- C1 (as amended): for every input file without NUL bytes whose lines,
terminator included, have at most `MAX_LINE_LEN - 2` = 32764 bytes and which
has `N ≥ 1` lines, a run of `read_text_lines_from_file` followed by
`write_reversed_lines` in which every write succeeds produces an output with
exactly `N` lines, and the line of index `i` of the output (from 0) is the line
of index `N - 1 - i` of the input. -/
theorem C1_output_lines_reversed (w : World) (name : String) (filename : Option String)
    (file : List Nat) (hfile : w.files name = some file)
    (_hN : 1 ≤ (spec_lines file).length) (h0 : 0 ∉ file)
    (hlen : ∀ l ∈ file_lines file, l.length ≤ MAX_LINE_LEN - 2)
    (hw : writes_succeed w filename) :
    ∃ out, reversal_output w name filename = some out
      ∧ (spec_lines out).length = (spec_lines file).length
      ∧ ∀ i, i < (spec_lines file).length →
          (spec_lines out)[i]? = (spec_lines file)[(spec_lines file).length - 1 - i]? := by
  refine ⟨_, reversal_output_eq hfile h0 hlen hw, ?_⟩
  have hs : spec_lines (unlines (spec_lines file).reverse) = (spec_lines file).reverse := by
    have := spec_lines_unlines (spec_lines file).reverse []
      (fun l h => lf_not_mem_spec_lines file l (List.mem_reverse.1 h)) (by simp)
    simpa using this
  rw [hs]
  exact ⟨List.length_reverse _, fun i hi => List.getElem?_reverse hi⟩

/-- C1, witness: the file `"a\nb\nc"`. -/
theorem C1_output_lines_reversed_witness :
    (0 ∉ abc_file ∧ ∀ l ∈ file_lines abc_file, l.length ≤ MAX_LINE_LEN - 2)
      ∧ ∃ out, reversal_output (one_file_world abc_file) "in" none = some out
          ∧ (spec_lines out).length = (spec_lines abc_file).length
          ∧ ∀ i, i < (spec_lines abc_file).length →
              (spec_lines out)[i]?
                = (spec_lines abc_file)[(spec_lines abc_file).length - 1 - i]? :=
  ⟨⟨by decide, by decide⟩,
    C1_output_lines_reversed (one_file_world abc_file) "in" none abc_file
      (one_file_world_files abc_file) (by decide) (by decide) (by decide)
      (one_file_world_writes abc_file none)⟩

/-- C1, counterexample: a file of one line of 32766 bytes (32764 letters `a`,
a letter `b`, a line-feed) and no NUL byte. The output has two lines, `b` and
the 32764 letters `a`: the number of lines is not kept. And a file of one line
with a NUL byte, `a`, NUL, `b`, line-feed: the line of the output is `a`, not
the line of the input. -/
theorem C1_counterexample :
    (tac_bytes (long_block ++ [98, LF]) = some ([98, LF] ++ long_block)
      ∧ spec_lines (long_block ++ [98, LF]) = [long_block ++ [98]]
      ∧ spec_lines ([98, LF] ++ long_block) = [[98], long_block]
      ∧ (spec_lines ([98, LF] ++ long_block)).length
          ≠ (spec_lines (long_block ++ [98, LF])).length)
      ∧ (tac_bytes [97, 0, 98, LF] = some [97, LF]
        ∧ spec_lines [97, 0, 98, LF] = [[97, 0, 98]]
        ∧ spec_lines [97, LF] = [[97]]) := by
  have hblock : long_block ≠ [] := by
    intro h
    have := congrArg List.length h
    rw [long_block_length] at this
    exact absurd this (by decide)
  have h1 : tac_bytes (long_block ++ [98, LF]) = some ([98, LF] ++ long_block) := by
    have := @reversal_output_block (one_file_world (long_block ++ [98, LF])) "in"
      none long_block [[98]] []
      (by simp [one_file_world, unlines]) long_block_length nul_not_mem_long_block
      lf_not_mem_long_block (by simp [unlines]) (by decide) (by simp) (by simp) (by simp)
      (one_file_world_writes _ none)
    simpa [tac_bytes, unlines] using this
  have h2 : spec_lines (long_block ++ [98, LF]) = [long_block ++ [98]] := by
    have := spec_lines_unlines [long_block ++ [98]] []
      (by simpa [LF] using lf_not_mem_long_block) (by simp)
    simpa [unlines] using this
  have h3 : spec_lines ([98, LF] ++ long_block) = [[98], long_block] := by
    have := spec_lines_unlines [[98]] long_block (by decide) lf_not_mem_long_block
    simpa [unlines, hblock] using this
  refine ⟨⟨h1, h2, h3, ?_⟩, by decide, by decide, by decide⟩
  rw [h2, h3]
  decide

/-! ## C2: reversing twice -/

/-- The file made of line texts without NUL, without line-feed and of fewer
than `MAX_LINE_LEN - 2` bytes satisfies the hypotheses under which the
reversal is known. -/
theorem unlines_short_lines {ls : List (List Nat)}
    (hls : ∀ l ∈ ls, 0 ∉ l ∧ LF ∉ l ∧ l.length + 1 ≤ MAX_LINE_LEN - 2) :
    0 ∉ unlines ls ∧ (∀ l ∈ file_lines (unlines ls), l.length ≤ MAX_LINE_LEN - 2)
      ∧ spec_lines (unlines ls) = ls := by
  have hfl := file_lines_unlines ls [] (fun l h => (hls l h).2.1) (by simp)
  have hsl := spec_lines_unlines ls [] (fun l h => (hls l h).2.1) (by simp)
  simp only [List.append_nil, if_true] at hfl hsl
  refine ⟨?_, ?_, hsl⟩
  · intro h
    rcases mem_unlines h with h | ⟨l, hl, hx⟩
    · exact absurd h (by decide)
    · exact (hls l hl).1 hx
  · intro l hl
    rw [hfl] at hl
    obtain ⟨l', hl', rfl⟩ := List.mem_map.1 hl
    simpa using (hls l' hl').2.2

/-- C2 (as amended): for every non-empty input file without NUL bytes whose
lines have fewer than `MAX_LINE_LEN - 2` = 32764 bytes each, terminator not
counted, applying the reversal (`read_text_lines_from_file` then
`write_reversed_lines`, all writes succeeding) to the output of the reversal
of that file reproduces the original file's lines exactly: the second output
is the original lines, a line-feed after each. -/
theorem C2_double_reversal (w : World) (name : String) (filename : Option String)
    (file : List Nat) (hfile : w.files name = some file) (_hne : file ≠ [])
    (h0 : 0 ∉ file) (hlen : ∀ l ∈ spec_lines file, l.length + 1 ≤ MAX_LINE_LEN - 2)
    (hw : writes_succeed w filename) :
    ∃ out, reversal_output w name filename = some out
      ∧ ∀ (w2 : World) (name2 : String) (filename2 : Option String),
          w2.files name2 = some out → writes_succeed w2 filename2 →
          ∃ out2, reversal_output w2 name2 filename2 = some out2
            ∧ spec_lines out2 = spec_lines file
            ∧ out2 = unlines (spec_lines file) := by
  have hlines :
      ∀ l ∈ spec_lines file, 0 ∉ l ∧ LF ∉ l ∧ l.length + 1 ≤ MAX_LINE_LEN - 2 :=
    fun l hl => ⟨fun hx => h0 (mem_of_mem_spec_lines hl hx), lf_not_mem_spec_lines file l hl,
      hlen l hl⟩
  have hlen1 : ∀ l ∈ file_lines file, l.length ≤ MAX_LINE_LEN - 2 := by
    intro l hl
    have hc : line_content l ∈ spec_lines file := List.mem_map.2 ⟨l, hl, rfl⟩
    have h1 := hlen _ hc
    obtain ⟨ls, tail, rfl, hls, ht⟩ := exists_unlines file
    rw [file_lines_unlines ls tail hls ht] at hl
    rcases List.mem_append.1 hl with h | h
    · obtain ⟨l', hl', rfl⟩ := List.mem_map.1 h
      rw [line_content_line (hls l' hl')] at h1
      simpa using h1
    · by_cases htail : tail = []
      · simp [htail] at h
      · simp only [htail, if_false, List.mem_singleton] at h
        subst h
        rw [line_content_self ht] at h1
        omega
  refine ⟨_, reversal_output_eq hfile h0 hlen1 hw, ?_⟩
  intro w2 name2 filename2 hfile2 hw2
  have hrev : ∀ l ∈ (spec_lines file).reverse,
      0 ∉ l ∧ LF ∉ l ∧ l.length + 1 ≤ MAX_LINE_LEN - 2 :=
    fun l hl => hlines l (List.mem_reverse.1 hl)
  obtain ⟨a, b, c⟩ := unlines_short_lines hrev
  have hout2 := reversal_output_eq hfile2 a b hw2
  rw [c, List.reverse_reverse] at hout2
  exact ⟨_, hout2, (unlines_short_lines hlines).2.2, rfl⟩

/-- C2, witness: the file `"a\nb\nc"`, reversed twice. -/
theorem C2_double_reversal_witness :
    (abc_file ≠ [] ∧ 0 ∉ abc_file
        ∧ ∀ l ∈ spec_lines abc_file, l.length + 1 ≤ MAX_LINE_LEN - 2)
      ∧ ∃ out, reversal_output (one_file_world abc_file) "in" none = some out
          ∧ ∀ (w2 : World) (name2 : String) (filename2 : Option String),
              w2.files name2 = some out → writes_succeed w2 filename2 →
              ∃ out2, reversal_output w2 name2 filename2 = some out2
                ∧ spec_lines out2 = spec_lines abc_file
                ∧ out2 = unlines (spec_lines abc_file) :=
  ⟨⟨by decide, by decide, by decide⟩,
    C2_double_reversal (one_file_world abc_file) "in" none abc_file
      (one_file_world_files abc_file) (by decide) (by decide) (by decide)
      (one_file_world_writes abc_file none)⟩

/-- C2, counterexample: the file of one line made of 32764 letters `a`, a
letter `b` and a line-feed. Its reversal is `b`, line-feed, and the letters
`a`; the reversal of that has two lines, the letters `a` and `b`, where the
original file has one. And the file `a`, NUL, `b`, line-feed: its reversal and
the reversal of that are `a`, line-feed. -/
theorem C2_counterexample :
    (tac_bytes (long_block ++ [98, LF]) = some ([98, LF] ++ long_block)
      ∧ tac_bytes ([98, LF] ++ long_block) = some (long_block ++ [LF, 98, LF])
      ∧ spec_lines (long_block ++ [LF, 98, LF]) = [long_block, [98]]
      ∧ spec_lines (long_block ++ [98, LF]) = [long_block ++ [98]]
      ∧ spec_lines (long_block ++ [LF, 98, LF]) ≠ spec_lines (long_block ++ [98, LF]))
      ∧ (tac_bytes [97, 0, 98, LF] = some [97, LF]
        ∧ tac_bytes [97, LF] = some [97, LF]
        ∧ spec_lines [97, LF] ≠ spec_lines [97, 0, 98, LF]) := by
  have hblock : long_block ≠ [] := by
    intro h
    have := congrArg List.length h
    rw [long_block_length] at this
    exact absurd this (by decide)
  have h1 : tac_bytes (long_block ++ [98, LF]) = some ([98, LF] ++ long_block) := by
    have := @reversal_output_block (one_file_world (long_block ++ [98, LF])) "in"
      none long_block [[98]] []
      (by simp [one_file_world, unlines]) long_block_length nul_not_mem_long_block
      lf_not_mem_long_block (by simp [unlines]) (by decide) (by simp) (by simp) (by simp)
      (one_file_world_writes _ none)
    simpa [tac_bytes, unlines] using this
  have h2 : tac_bytes ([98, LF] ++ long_block) = some (long_block ++ [LF, 98, LF]) := by
    have := @reversal_output_unlines (one_file_world ([98, LF] ++ long_block)) "in"
      none [[98]] long_block
      (by simp [one_file_world, unlines]) (by decide) nul_not_mem_long_block
      lf_not_mem_long_block (le_of_eq long_block_length) (one_file_world_writes _ none)
    simpa [tac_bytes, unlines, hblock] using this
  have h3 : spec_lines (long_block ++ [LF, 98, LF]) = [long_block, [98]] := by
    have := spec_lines_unlines [long_block, [98]] []
      (by
        intro l hl
        simp only [List.mem_cons, List.mem_singleton, List.not_mem_nil, or_false] at hl
        rcases hl with rfl | rfl
        · exact lf_not_mem_long_block
        · decide)
      (by simp)
    simpa [unlines] using this
  have h4 : spec_lines (long_block ++ [98, LF]) = [long_block ++ [98]] := by
    have := spec_lines_unlines [long_block ++ [98]] []
      (by simpa [LF] using lf_not_mem_long_block) (by simp)
    simpa [unlines] using this
  refine ⟨⟨h1, h2, h3, h4, ?_⟩, by decide, by decide, by decide⟩
  rw [h3, h4]
  intro h
  have := congrArg List.length h
  simp at this

/-! ## C3: the last line without terminator -/

/-- A file whose last byte is not a line-feed has a non-empty rest behind its
terminated lines. -/
theorem tail_ne_nil_of_getLast {ls : List (List Nat)} {tail : List Nat}
    (hne : unlines ls ++ tail ≠ []) (hlast : (unlines ls ++ tail).getLast? ≠ some LF) :
    tail ≠ [] := by
  intro ht
  subst ht
  rw [List.append_nil] at hne hlast
  cases ls with
  | nil => exact hne rfl
  | cons l ls => exact hlast (unlines_getLast (l :: ls) (by simp))

/-- C3 (as amended): for every input file without NUL bytes whose lines,
terminator included, have at most `MAX_LINE_LEN - 2` = 32764 bytes and whose
last line lacks a trailing line-feed, the first line of the output is that
last line with exactly one line-feed appended, and every other output line is
byte-identical to the input line it comes from, the lines before the last
being taken in reverse order. -/
theorem C3_last_line_gains_linefeed (w : World) (name : String) (filename : Option String)
    (file : List Nat) (hfile : w.files name = some file) (hne : file ≠ [])
    (hlast : file.getLast? ≠ some LF) (h0 : 0 ∉ file)
    (hlen : ∀ l ∈ file_lines file, l.length ≤ MAX_LINE_LEN - 2)
    (hw : writes_succeed w filename) :
    ∃ out init last, reversal_output w name filename = some out
      ∧ file_lines file = init ++ [last] ∧ LF ∉ last
      ∧ file_lines out = (last ++ [LF]) :: init.reverse
      ∧ out = last ++ [LF] ++ init.reverse.flatten := by
  obtain ⟨ls, tail, rfl, hls, ht⟩ := exists_unlines file
  have htail := tail_ne_nil_of_getLast hne hlast
  have hout := reversal_output_eq hfile h0 hlen hw
  rw [spec_lines_unlines ls tail hls ht] at hout
  simp only [htail, if_false, List.reverse_append, List.reverse_cons, List.reverse_nil,
    List.nil_append, List.singleton_append] at hout
  refine ⟨_, ls.map (fun l => l ++ [LF]), tail, hout, ?_, ht, ?_, ?_⟩
  · rw [file_lines_unlines ls tail hls ht]
    simp [htail]
  · have := file_lines_unlines (tail :: ls.reverse) []
      (by
        intro l hl
        rcases List.mem_cons.1 hl with rfl | h
        · exact ht
        · exact hls l (List.mem_reverse.1 h))
      (by simp)
    simpa [List.map_reverse] using this
  · simp [unlines, unlines_eq_flatten, List.map_reverse]

/-- C3, witness: the input `"a\nb\nc"` produces the output `"c\nb\na\n"`. -/
theorem C3_last_line_gains_linefeed_witness :
    (abc_file ≠ [] ∧ abc_file.getLast? ≠ some LF ∧ 0 ∉ abc_file
        ∧ ∀ l ∈ file_lines abc_file, l.length ≤ MAX_LINE_LEN - 2)
      ∧ (∃ out init last, reversal_output (one_file_world abc_file) "in" none = some out
          ∧ file_lines abc_file = init ++ [last] ∧ LF ∉ last
          ∧ file_lines out = (last ++ [LF]) :: init.reverse
          ∧ out = last ++ [LF] ++ init.reverse.flatten)
      ∧ reversal_output (one_file_world abc_file) "in" none = some [99, LF, 98, LF, 97, LF] :=
  ⟨⟨by decide, by decide, by decide, by decide⟩,
    C3_last_line_gains_linefeed (one_file_world abc_file) "in" none abc_file
      (one_file_world_files abc_file) (by decide) (by decide) (by decide) (by decide)
      (one_file_world_writes abc_file none),
    by decide⟩

/-- C3, counterexample: the file of one line made of 32764 letters `a` and a
letter `b`, without line-feed. The first line of the output is `b` with a
line-feed, not the input line with a line-feed, and the second output line,
the letters `a`, is no line of the input. And the file `a`, NUL, `b`, without
line-feed: the output is `a`, line-feed, not the input line with a
line-feed. -/
theorem C3_counterexample :
    ((long_block ++ [98]).getLast? ≠ some LF
      ∧ file_lines (long_block ++ [98]) = [long_block ++ [98]]
      ∧ tac_bytes (long_block ++ [98]) = some ([98, LF] ++ long_block)
      ∧ file_lines ([98, LF] ++ long_block) = [[98, LF], long_block]
      ∧ [98, LF] ≠ long_block ++ [98] ++ [LF])
      ∧ ([97, 0, 98].getLast? ≠ some LF
        ∧ file_lines [97, 0, 98] = [[97, 0, 98]]
        ∧ tac_bytes [97, 0, 98] = some [97, LF]
        ∧ [97, LF] ≠ [97, 0, 98] ++ [LF]) := by
  have hblock : long_block ≠ [] := by
    intro h
    have := congrArg List.length h
    rw [long_block_length] at this
    exact absurd this (by decide)
  have hlf : LF ∉ long_block ++ [98] := by simpa [LF] using lf_not_mem_long_block
  have hlast : (long_block ++ [98]).getLast? = some 98 := List.getLast?_concat _
  refine ⟨⟨?_, file_lines_last hlf (by simp), ?_, ?_, ?_⟩, by decide, by decide, by decide,
    by decide⟩
  · rw [hlast]
    decide
  · have := @reversal_output_block (one_file_world (long_block ++ [98])) "in"
      none long_block [] [98]
      (by simp [one_file_world, unlines]) long_block_length nul_not_mem_long_block
      lf_not_mem_long_block (by simp [unlines]) (by simp) (by decide) (by decide) (by decide)
      (one_file_world_writes _ none)
    simpa [tac_bytes, unlines] using this
  · have := file_lines_unlines [[98]] long_block (by decide) lf_not_mem_long_block
    simpa [unlines, hblock] using this
  · intro h
    have h2 := congrArg List.length h
    rw [List.length_append, List.length_append, long_block_length] at h2
    have hM : MAX_LINE_LEN = 32766 := rfl
    rw [hM] at h2
    simp only [List.length_cons, List.length_nil] at h2
    omega

/-! ## C4: the exit status of a run that passes the check -/

/-- C4: for every argument vector that passes `check_command_line_arguments`,
`reverse_file` (and so `main`) returns, and the exit status is success (0) if
and only if the read produced at least one line, the destination could be
opened (no `fopen` for writing failed), and no write reported an error (no
`fputs` call returned `EOF`); in every other case it is `EXIT_FAILURE`. In
terms of the world: the source is not empty, the destination named by the
third entry of `argv`, if any, can be opened for writing, and none of the
first `fputs` calls, as many as lines were read, returns `EOF`. -/
theorem C4_exit_status (w : World) (argv : List String)
    (hcheck : (check_command_line_arguments w argv).1 = EXIT_SUCCESS) :
    ∃ head w1 r evs,
      read_text_lines_from_file
          ((check_command_line_arguments w argv).2.log (Event.call Func.reverse_file)) argv[1]?
        = some (head, w1)
      ∧ reverse_file (check_command_line_arguments w argv).2 argv = some r
      ∧ main w argv = some r
      ∧ r.2.trace = w1.trace ++ evs
      ∧ (r.1 = EXIT_SUCCESS ↔
          head ≠ [] ∧ (∀ name, Event.fopen name Mode.w false ∉ evs)
            ∧ ∀ text, Event.fputs text EOF ∉ evs)
      ∧ (r.1 = EXIT_SUCCESS ↔
          head ≠ []
            ∧ (∀ d, (if argv.length > 2 then argv[2]? else none) = some d →
                w.creatable d = true)
            ∧ ∀ j, j < head.length → w.fputs_result j ≠ EOF)
      ∧ (r.1 ≠ EXIT_SUCCESS → r.1 = EXIT_FAILURE) ∧ EXIT_SUCCESS = 0 := by
  obtain ⟨hlen, ⟨c, hs⟩, hd⟩ := (check_passed_iff w argv).1 hcheck
  have hceq := check_passed w argv hlen hs hd
  have hmain := main_of_check_passed hceq
  rw [hceq]
  obtain ⟨head, w1, hread, _, hcre, hres, _, hnil, htext, hfail, hok⟩ := reverse_file_eq
    { w with trace := w.trace ++
        [Event.call Func.check_command_line_arguments,
          Event.printf Message.normal_color, Event.fopen argv[1]? Mode.r true,
          Event.fclose, Event.fopen argv[2]? Mode.r false] } argv
  simp only at hcre hres
  by_cases hhead : head = []
  · have hrev := hfail hhead
    refine ⟨head, w1, _, [], hread, hrev, hmain.trans hrev, by simp, ?_, ?_, fun _ => rfl, rfl⟩
    · simp [hhead, EXIT_FAILURE, EXIT_SUCCESS]
    · simp [hhead, EXIT_FAILURE, EXIT_SUCCESS]
  · have hrev := hok hhead
    obtain ⟨evs, htrace, hopened, hputs⟩ := write_reversed_lines_world w1 head
      (if argv.length > 2 then argv[2]? else none)
    obtain ⟨hstatus, hfailure⟩ := write_reversed_lines_status w1 head
      (if argv.length > 2 then argv[2]? else none)
    have hiff := write_reversed_lines_status_iff w1 head
      (if argv.length > 2 then argv[2]? else none)
    rw [store_texts_length htext, hcre, hres] at hiff
    refine ⟨head, w1, _, evs, hread, hrev, hmain.trans hrev, htrace, ?_, ?_, hfailure, rfl⟩
    · rw [hstatus]
      constructor
      · rintro ⟨ho, hall⟩
        refine ⟨hhead, ?_, ?_⟩
        · intro name hmem
          have := hopened.1 ⟨name, hmem⟩
          rw [ho] at this
          cases this
        · intro text hmem
          exact hall _ ((hputs text EOF).1 hmem) rfl
      · rintro ⟨_, hno, hall⟩
        constructor
        · by_contra hc
          obtain ⟨name, hmem⟩ := hopened.2 (by simpa using hc)
          exact hno name hmem
        · rintro ⟨text, r⟩ ha he
          cases he
          exact hall text ((hputs text EOF).2 ha)
    · rw [hiff]
      exact ⟨fun h => ⟨hhead, h.1, h.2⟩, fun h => ⟨h.2.1, h.2.2⟩⟩

/-- C4, witness: the file `"a\nb\nc"` reversed to the file `out`. -/
theorem C4_exit_status_witness :
    (check_command_line_arguments (one_file_world abc_file) ["tac", "in", "out"]).1
        = EXIT_SUCCESS
      ∧ (main (one_file_world abc_file) ["tac", "in", "out"]).map (fun r => r.1) = some 0
      ∧ ∃ head w1 r evs,
          read_text_lines_from_file
              ((check_command_line_arguments (one_file_world abc_file)
                ["tac", "in", "out"]).2.log (Event.call Func.reverse_file))
              ["tac", "in", "out"][1]?
            = some (head, w1)
          ∧ reverse_file (check_command_line_arguments (one_file_world abc_file)
              ["tac", "in", "out"]).2 ["tac", "in", "out"] = some r
          ∧ main (one_file_world abc_file) ["tac", "in", "out"] = some r
          ∧ r.2.trace = w1.trace ++ evs
          ∧ (r.1 = EXIT_SUCCESS ↔
              head ≠ [] ∧ (∀ name, Event.fopen name Mode.w false ∉ evs)
                ∧ ∀ text, Event.fputs text EOF ∉ evs)
          ∧ (r.1 = EXIT_SUCCESS ↔
              head ≠ []
                ∧ (∀ d, (if ["tac", "in", "out"].length > 2 then ["tac", "in", "out"][2]?
                      else none) = some d →
                    (one_file_world abc_file).creatable d = true)
                ∧ ∀ j, j < head.length → (one_file_world abc_file).fputs_result j ≠ EOF)
          ∧ (r.1 ≠ EXIT_SUCCESS → r.1 = EXIT_FAILURE) ∧ EXIT_SUCCESS = 0 :=
  ⟨by decide, by decide,
    C4_exit_status (one_file_world abc_file) ["tac", "in", "out"] (by decide)⟩

/-! ## C5: the empty source file -/

/-- C5: for an empty source file (0 bytes), with or without a destination
argument, the program exits with failure status and `write_reversed_lines` is
never invoked: nothing is opened for writing, nothing is written, and the
files are as before, so that the destination is not created. -/
theorem C5_empty_source (w : World) (argv : List String) (src : String)
    (hsrc : argv[1]? = some src) (hempty : w.files src = some []) :
    ∃ r evs, main w argv = some r ∧ r.1 = EXIT_FAILURE ∧ r.1 ≠ 0
      ∧ r.2.files = w.files ∧ r.2.trace = w.trace ++ evs
      ∧ Event.call Func.write_reversed_lines ∉ evs
      ∧ ∀ e ∈ evs, e.writes = false := by
  have hlen : 1 < argv.length := by
    by_contra hc
    have : argv[1]? = none := List.getElem?_eq_none (by omega)
    rw [this] at hsrc
    cases hsrc
  have hs : argv[1]?.bind w.files = some [] := by simp [hsrc, hempty]
  cases hd : argv[2]?.bind w.files with
  | some d =>
    have hcheck := check_destination_exists w argv hlen hs hd
    refine ⟨_, _, main_of_check_failed hcheck, rfl, exit_failure_ne_zero, rfl, rfl, by simp, ?_⟩
    intro e he
    simp only [List.mem_cons, List.mem_singleton, List.not_mem_nil, or_false] at he
    rcases he with rfl | rfl | rfl | rfl | rfl | rfl | rfl | rfl | rfl <;> rfl
  | none =>
    have hcheck := check_passed w argv hlen hs hd
    obtain ⟨head, w1, _, hfiles, _, _, htrace, hnil, _, hfail, _⟩ := reverse_file_eq
      { w with trace := w.trace ++
          [Event.call Func.check_command_line_arguments,
            Event.printf Message.normal_color, Event.fopen argv[1]? Mode.r true,
            Event.fclose, Event.fopen argv[2]? Mode.r false] } argv
    have hhead : head = [] := hnil.2 (Or.inr hs)
    have hmain := (main_of_check_passed hcheck).trans (hfail hhead)
    refine ⟨_, [Event.call Func.check_command_line_arguments,
        Event.printf Message.normal_color, Event.fopen argv[1]? Mode.r true,
        Event.fclose, Event.fopen argv[2]? Mode.r false, Event.call Func.reverse_file,
        Event.call Func.read_text_lines_from_file,
        Event.fopen argv[1]? Mode.r true], hmain, rfl, exit_failure_ne_zero, hfiles, ?_,
        by simp, ?_⟩
    · simp [htrace, hs]
    · intro e he
      simp only [List.mem_cons, List.mem_singleton, List.not_mem_nil, or_false] at he
      rcases he with rfl | rfl | rfl | rfl | rfl | rfl | rfl | rfl <;> rfl

/-- C5, witness: an empty file `in`, with a destination argument. -/
theorem C5_empty_source_witness :
    (["tac", "in", "out"][1]? = some "in" ∧ (one_file_world []).files "in" = some [])
      ∧ ∃ r evs, main (one_file_world []) ["tac", "in", "out"] = some r
          ∧ r.1 = EXIT_FAILURE ∧ r.1 ≠ 0
          ∧ r.2.files = (one_file_world []).files
          ∧ r.2.trace = (one_file_world []).trace ++ evs
          ∧ Event.call Func.write_reversed_lines ∉ evs
          ∧ ∀ e ∈ evs, e.writes = false :=
  ⟨⟨rfl, one_file_world_files []⟩,
    C5_empty_source (one_file_world []) ["tac", "in", "out"] "in" rfl (one_file_world_files [])⟩

/-! ## C6: the destination exists -/

/-- The check refuses a destination that can be opened for reading: then
`check_command_line_arguments` returns failure, `main` exits with failure
status without calling `reverse_file`, nothing is opened for writing or
written, and the contents of that file and of every other file are
unchanged. -/
theorem readable_destination_refused (w : World) (argv : List String) (dst : String)
    (content : List Nat) (hdst : argv[2]? = some dst) (hex : w.files dst = some content) :
    (check_command_line_arguments w argv).1 = EXIT_FAILURE
      ∧ ∃ r evs, main w argv = some r ∧ r.1 = EXIT_FAILURE ∧ r.1 ≠ 0
          ∧ r.2.files = w.files ∧ r.2.files dst = some content
          ∧ r.2.trace = w.trace ++ evs
          ∧ Event.call Func.reverse_file ∉ evs
          ∧ ∀ e ∈ evs, e.writes = false := by
  have hlen : 1 < argv.length := by
    by_contra hc
    have : argv[2]? = none := List.getElem?_eq_none (by omega)
    rw [this] at hdst
    cases hdst
  have hd : argv[2]?.bind w.files = some content := by simp [hdst, hex]
  cases hs : argv[1]?.bind w.files with
  | none =>
    have hcheck := check_source_missing w argv hlen hs
    refine ⟨by rw [hcheck], _, _, main_of_check_failed hcheck, rfl,
      exit_failure_ne_zero, rfl, hex, rfl,
      by simp, ?_⟩
    intro e he
    simp only [List.mem_cons, List.mem_singleton, List.not_mem_nil, or_false] at he
    rcases he with rfl | rfl | rfl | rfl | rfl | rfl <;> rfl
  | some c =>
    have hcheck := check_destination_exists w argv hlen hs hd
    refine ⟨by rw [hcheck], _, _, main_of_check_failed hcheck, rfl,
      exit_failure_ne_zero, rfl, hex, rfl,
      by simp, ?_⟩
    intro e he
    simp only [List.mem_cons, List.mem_singleton, List.not_mem_nil, or_false] at he
    rcases he with rfl | rfl | rfl | rfl | rfl | rfl | rfl | rfl | rfl <;> rfl

/-- C6, at the failing input: the program is run on `in` and `out`, where
`out` exists, holds the letter `x`, and can be opened for writing but not for
reading. The only probe of the destination, `fopen(argv[2], "r")`, fails, so
the check passes; `reverse_file` is called, `out` is opened for writing, the
reversal of `in` is written to it, and `main` returns 0: the file that
existed is overwritten. -/
theorem C6_write_only_destination_overwritten :
    ["tac", "in", "out"][2]? = some "out"
      ∧ write_only_world.write_only "out" = some [120]
      ∧ write_only_world.files "out" = none
      ∧ (check_command_line_arguments write_only_world ["tac", "in", "out"]).1 = EXIT_SUCCESS
      ∧ (main write_only_world ["tac", "in", "out"]).map (fun r => r.1) = some 0
      ∧ (main write_only_world ["tac", "in", "out"]).map (fun r => r.2.trace)
          = some [Event.call Func.check_command_line_arguments,
              Event.printf Message.normal_color,
              Event.fopen (some "in") Mode.r true,
              Event.fclose,
              Event.fopen (some "out") Mode.r false,
              Event.call Func.reverse_file,
              Event.call Func.read_text_lines_from_file,
              Event.fopen (some "in") Mode.r true,
              Event.call Func.write_reversed_lines,
              Event.fopen (some "out") Mode.w true,
              Event.fputs [99, LF] 1,
              Event.fputs [98, LF] 1,
              Event.fputs [97, LF] 1,
              Event.fclose]
      ∧ (main write_only_world ["tac", "in", "out"]).map (fun r => r.2.write_only "out")
          = some none
      ∧ (main write_only_world ["tac", "in", "out"]).map (fun r => r.2.files "out")
          = some (some [99, LF, 98, LF, 97, LF]) :=
  ⟨by decide, by decide, by decide, by decide, by decide, by decide, by decide, by decide⟩

/-! ## C7: no source argument -/

/-- C7: for every run with zero or one command-line argument (`argc ≤ 1`), the
program exits with failure status and does not touch the file system: the run
consists of the call of the check and three `printf` calls, no file is opened,
closed or written, and the files are as before. -/
theorem C7_no_source_argument (w : World) (argv : List String) (h : argv.length ≤ 1) :
    ∃ r evs, main w argv = some r ∧ r.1 = EXIT_FAILURE ∧ r.1 ≠ 0
      ∧ r.2.files = w.files ∧ r.2.trace = w.trace ++ evs
      ∧ evs = [Event.call Func.check_command_line_arguments,
          Event.printf Message.normal_color, Event.printf Message.usage,
          Event.printf Message.normal_color]
      ∧ ∀ e ∈ evs, e.accesses_files = false := by
  refine ⟨_, _, main_of_check_failed (check_no_source w argv h), rfl,
    exit_failure_ne_zero, rfl, rfl, rfl, by decide⟩

/-- C7, witness: the program called without argument. -/
theorem C7_no_source_argument_witness :
    ["tac"].length ≤ 1
      ∧ ∃ r evs, main (one_file_world abc_file) ["tac"] = some r
          ∧ r.1 = EXIT_FAILURE ∧ r.1 ≠ 0
          ∧ r.2.files = (one_file_world abc_file).files
          ∧ r.2.trace = (one_file_world abc_file).trace ++ evs
          ∧ evs = [Event.call Func.check_command_line_arguments,
              Event.printf Message.normal_color, Event.printf Message.usage,
              Event.printf Message.normal_color]
          ∧ ∀ e ∈ evs, e.accesses_files = false :=
  ⟨by decide, C7_no_source_argument (one_file_world abc_file) ["tac"] (by decide)⟩

/-! ## C8: the source cannot be opened -/

/-- C8: for every run whose source file does not exist or cannot be opened
for reading, the program prints the diagnostic, exits with failure status and
writes no destination (`reverse_file` is not called, nothing is opened for
writing or written, the files are as before); and
`read_text_lines_from_file` called on such a file returns the empty list,
without any diagnostic: it only makes the failed `fopen` call. -/
theorem C8_missing_source (w : World) (argv : List String) (src : String)
    (hsrc : argv[1]? = some src) (hno : w.files src = none) :
    (∃ r evs, main w argv = some r ∧ r.1 = EXIT_FAILURE ∧ r.1 ≠ 0
        ∧ r.2.files = w.files ∧ r.2.trace = w.trace ++ evs
        ∧ Event.printf Message.source_missing ∈ evs
        ∧ Event.call Func.reverse_file ∉ evs
        ∧ ∀ e ∈ evs, e.writes = false)
      ∧ read_text_lines_from_file w (some src)
          = some ([], (w.log (Event.call Func.read_text_lines_from_file)).log
              (Event.fopen (some src) Mode.r false)) := by
  have hlen : 1 < argv.length := by
    by_contra hc
    have : argv[1]? = none := List.getElem?_eq_none (by omega)
    rw [this] at hsrc
    cases hsrc
  have hs : argv[1]?.bind w.files = none := by simp [hsrc, hno]
  have hcheck := check_source_missing w argv hlen hs
  refine ⟨⟨_, _, main_of_check_failed hcheck, rfl, exit_failure_ne_zero, rfl, rfl, by simp,
    by simp, ?_⟩, ?_⟩
  · intro e he
    simp only [List.mem_cons, List.mem_singleton, List.not_mem_nil, or_false] at he
    rcases he with rfl | rfl | rfl | rfl | rfl | rfl <;> rfl
  · simp [read_text_lines_from_file, fopen_r, World.log, hno]

/-- C8, witness: the source `missing` does not exist. -/
theorem C8_missing_source_witness :
    (["tac", "missing", "out"][1]? = some "missing"
        ∧ (one_file_world abc_file).files "missing" = none)
      ∧ (∃ r evs, main (one_file_world abc_file) ["tac", "missing", "out"] = some r
          ∧ r.1 = EXIT_FAILURE ∧ r.1 ≠ 0
          ∧ r.2.files = (one_file_world abc_file).files
          ∧ r.2.trace = (one_file_world abc_file).trace ++ evs
          ∧ Event.printf Message.source_missing ∈ evs
          ∧ Event.call Func.reverse_file ∉ evs
          ∧ ∀ e ∈ evs, e.writes = false)
      ∧ read_text_lines_from_file (one_file_world abc_file) (some "missing")
          = some ([], ((one_file_world abc_file).log
              (Event.call Func.read_text_lines_from_file)).log
                (Event.fopen (some "missing") Mode.r false)) :=
  ⟨⟨rfl, by decide⟩,
    C8_missing_source (one_file_world abc_file) ["tac", "missing", "out"] "missing" rfl
      (by decide)⟩

/-! ## C9: a line longer than the reader takes at once -/

theorem length_le_unlines (ls : List (List Nat)) : ls.length ≤ (unlines ls).length := by
  induction ls with
  | nil => simp
  | cons l ls ih => simp only [unlines, List.length_cons, List.length_append] at ih ⊢; omega

/-- What the reader does with a line longer than `MAX_LINE_LEN - 2` = 32764
bytes that follows short lines in a file without NUL bytes: the first 32764
bytes of the line become one entry, behind the entries of the lines before
it, and the rest of the line (and of the file) is kept in the entries in front
of that one, whose texts, last to first, make up that rest, with a line-feed
added when the file does not end with one. -/
theorem long_line_is_split (w : World) (name : String) (ls : List (List Nat))
    (b rest : List Nat) (hfile : w.files name = some (unlines ls ++ (b ++ rest)))
    (hls : ∀ l ∈ ls, 0 ∉ l ∧ LF ∉ l ∧ l.length + 1 ≤ MAX_LINE_LEN - 2)
    (hb : b.length = MAX_LINE_LEN - 2) (hb0 : 0 ∉ b) (hbl : LF ∉ b)
    (hrest : rest ≠ []) (hr0 : 0 ∉ rest) :
    ∃ front w1,
      read_text_lines_from_file w (some name)
        = some (front ++ node_of b :: (ls.map (fun l => node_of (l ++ [LF]))).reverse, w1)
      ∧ front ≠ []
      ∧ node_text (node_of b) = b
      ∧ ((front.reverse.map node_text).flatten = rest
          ∨ (front.reverse.map node_text).flatten = rest ++ [LF])
      ∧ ∀ filename, writes_succeed w filename →
          reversal_output w name filename
            = some (store_text front ++ b ++ unlines ls.reverse) := by
  have hM : MAX_LINE_LEN = 32766 := rfl
  have hle := length_le_unlines ls
  have hfuel : (unlines ls ++ (b ++ rest)).length + 1
      = ((unlines ls).length - ls.length + 32764 + rest.length + 1) + ls.length := by
    rw [List.length_append, List.length_append, hb, hM]
    omega
  obtain ⟨front, hread, htext, hne, hall⟩ := read_loop_pieces
    ((unlines ls).length - ls.length + 32764 + rest.length) rest
    (node_of b :: ((ls.map (fun l => node_of (l ++ [LF]))).reverse ++ [])) hr0 (by omega)
  have hloop : read_loop ((unlines ls ++ (b ++ rest)).length + 1) (unlines ls ++ (b ++ rest)) []
      = some (front ++ node_of b :: (ls.map (fun l => node_of (l ++ [LF]))).reverse) := by
    rw [hfuel, read_loop_lines ls (b ++ rest) _ [] hls, read_loop_block _ rest _ hb hb0 hbl,
      hread]
    simp
  obtain ⟨front', hfix, hlen, htext'⟩ := add_linefeed_pieces front
    (node_of b :: (ls.map (fun l => node_of (l ++ [LF]))).reverse) (hne hrest) hall
  have hne' : front' ≠ [] := by
    intro h
    have := hne hrest
    rw [h] at hlen
    cases front with
    | nil => exact this rfl
    | cons e t => simp at hlen
  have hreadfile : read_text_lines_from_file w (some name)
      = some (front' ++ node_of b :: (ls.map (fun l => node_of (l ++ [LF]))).reverse,
          (w.log (Event.call Func.read_text_lines_from_file)).log
            (Event.fopen (some name) Mode.r true)) := by
    simp only [read_text_lines_from_file, fopen_r, World.log, Option.bind, hfile, hloop, hfix,
      Option.isSome]
  refine ⟨front', _, hreadfile, hne', node_text_node_of hb0, ?_, ?_⟩
  · rw [htext] at htext'
    exact htext'
  · intro filename hw
    have hw1 : writes_succeed
        ((w.log (Event.call Func.read_text_lines_from_file)).log
          (Event.fopen (some name) Mode.r true)) filename := hw
    have hout := (write_reversed_lines_written hw1
      (front' ++ node_of b :: (ls.map (fun l => node_of (l ++ [LF]))).reverse)).1
    simp only [reversal_output, hreadfile, hout]
    rw [store_text_append, store_text_cons, node_text_node_of hb0, ← List.map_reverse,
      store_text_lines ls.reverse (fun l h => (hls l (List.mem_reverse.1 h)).1)]
    simp

/-- C9, at the failing input: the file of one line made of 32764 letters `a`,
four letters `b` and a line-feed, 32769 bytes in all. The line is not
truncated at the boundary: the store holds two entries for it, the rest of
the line (the letters `b` and the line-feed) is the text of the first of them,
and it is written to the output, before the first 32764 bytes of the line. -/
theorem C9_long_line_not_truncated :
    file_lines (long_block ++ [98, 98, 98, 98, LF]) = [long_block ++ [98, 98, 98, 98, LF]]
      ∧ (long_block ++ [98, 98, 98, 98, LF]).length = MAX_LINE_LEN + 3
      ∧ (∃ head w1,
          read_text_lines_from_file (one_file_world (long_block ++ [98, 98, 98, 98, LF]))
              (some "in")
            = some (head, w1)
          ∧ head.map node_text = [[98, 98, 98, 98, LF], long_block])
      ∧ tac_bytes (long_block ++ [98, 98, 98, 98, LF])
          = some ([98, 98, 98, 98, LF] ++ long_block) := by
  refine ⟨?_, ?_, ?_, ?_⟩
  · have := file_lines_unlines [long_block ++ [98, 98, 98, 98]] []
      (by simpa [LF] using lf_not_mem_long_block) (by simp)
    simpa [unlines] using this
  · rw [List.length_append, long_block_length]
    rfl
  · have := @read_text_lines_block (one_file_world (long_block ++ [98, 98, 98, 98, LF])) "in"
      long_block [[98, 98, 98, 98]] [] (by simp [one_file_world, unlines]) long_block_length
      nul_not_mem_long_block lf_not_mem_long_block (by simp [unlines]) (by decide) (by simp)
      (by simp) (by simp)
    refine ⟨_, _, this, ?_⟩
    have h1 : node_text (node_of [98, 98, 98, 98, LF]) = [98, 98, 98, 98, LF] := by decide
    simp [node_text_node_of nul_not_mem_long_block, h1]
  · have := @reversal_output_block (one_file_world (long_block ++ [98, 98, 98, 98, LF])) "in"
      none long_block [[98, 98, 98, 98]] []
      (by simp [one_file_world, unlines]) long_block_length nul_not_mem_long_block
      lf_not_mem_long_block (by simp [unlines]) (by decide) (by simp) (by simp) (by simp)
      (one_file_world_writes _ none)
    simpa [tac_bytes, unlines] using this

/-! ## C10: the writer after a write error -/

/-- C10: for every store and every sequence of write results,
`write_reversed_lines` passes the texts of the store to `fputs` in order,
attempts no further write after the first write that reports `EOF` (a call
that returns `EOF` is the last one made) while still freeing every list
element, attempts every text when no call reports `EOF`, and returns success
if and only if the destination was opened and no write reported `EOF`. -/
theorem C10_writer_stops_at_first_error (w : World) (head : line_list)
    (filename : Option String) :
    ((write_reversed_lines w head filename).state.attempts.map (fun a => a.2)
        = (List.range (write_reversed_lines w head filename).state.attempts.length).map
            w.fputs_result)
      ∧ ((write_reversed_lines w head filename).state.attempts.map (fun a => a.1)
          = (store_texts head).take (write_reversed_lines w head filename).state.attempts.length)
      ∧ (∀ j, j < (write_reversed_lines w head filename).state.attempts.length →
          w.fputs_result j = EOF →
          j + 1 = (write_reversed_lines w head filename).state.attempts.length)
      ∧ ((write_reversed_lines w head filename).opened = true →
          (∀ j, j < (write_reversed_lines w head filename).state.attempts.length →
            w.fputs_result j ≠ EOF) →
          (write_reversed_lines w head filename).state.attempts.length
            = (store_texts head).length)
      ∧ ((write_reversed_lines w head filename).opened = true →
          (write_reversed_lines w head filename).state.freed = head.length)
      ∧ ((write_reversed_lines w head filename).status = EXIT_SUCCESS ↔
          (write_reversed_lines w head filename).opened = true
            ∧ ∀ j, j < (write_reversed_lines w head filename).state.attempts.length →
                w.fputs_result j ≠ EOF)
      ∧ ((write_reversed_lines w head filename).status ≠ EXIT_SUCCESS →
          (write_reversed_lines w head filename).status = EXIT_FAILURE)
      ∧ ((write_reversed_lines w head filename).opened = true ↔
          ∀ name, filename = some name → w.creatable name = true) := by
  by_cases hopen : ∀ name, filename = some name → w.creatable name = true
  · obtain ⟨h1, h2, h3⟩ := write_reversed_lines_open head hopen
    obtain ⟨i1, i2, i3⟩ := write_invariant_loop head (write_invariant_start w.fputs_result)
    have hatt := write_loop_attempts w.fputs_result head write_start
    have hres := write_loop_result w.fputs_result head
    have herr := write_loop_error_iff w.fputs_result head
    rw [h1, h2, h3]
    refine ⟨i2, ?_, ?_, ?_, ?_, ?_, ?_, ?_⟩
    · simpa [write_start] using hatt.2
    · intro j hj he
      by_contra hne
      obtain ⟨a, ha, he'⟩ := hres j hj
      exact i3 j (by omega) a ha (he'.trans he)
    · intro _ hall
      have hend : (write_loop w.fputs_result head write_start).write_error ≠ EOF := by
        intro h
        obtain ⟨j, hj, he⟩ := herr.1 h
        exact hall j hj he
      simpa [write_start] using write_loop_attempts_all w.fputs_result head write_start hend
    · intro _
      simpa [write_start] using write_loop_freed w.fputs_result head write_start
    · by_cases h : (write_loop w.fputs_result head write_start).write_error = EOF
      · have hj := herr.1 h
        simp only [h, ne_eq, not_true_eq_false, if_false, true_and]
        constructor
        · intro hc
          exact absurd hc (by decide)
        · intro hall
          obtain ⟨j, hj, he⟩ := hj
          exact absurd he (hall j hj)
      · simp only [h, ne_eq, not_false_eq_true, if_true, true_and]
        refine ⟨fun _ j hj he => h (herr.2 ⟨j, hj, he⟩), fun _ => trivial⟩
    · intro hs
      by_cases h : (write_loop w.fputs_result head write_start).write_error = EOF
      · simp [h]
      · simp [h] at hs
    · exact ⟨fun _ => hopen, fun _ => rfl⟩
  · have hname : ∃ name, filename = some name ∧ w.creatable name = false := by
      by_contra hcon
      apply hopen
      intro name hn
      by_contra hc
      exact hcon ⟨name, hn, by simpa using hc⟩
    obtain ⟨name, rfl, hc⟩ := hname
    obtain ⟨h1, h2, h3, _⟩ := write_reversed_lines_closed head hc
    rw [h1, h2, h3]
    refine ⟨rfl, by simp [write_start], by simp [write_start], by simp, by simp, ?_, ?_, ?_⟩
    · simp [EXIT_FAILURE, EXIT_SUCCESS]
    · intro _
      rfl
    · simp [hc]

/-- C10, witness: three lines are written and the second `fputs` call returns
`EOF`: two calls are made, the three list elements are freed, and the status
is failure. -/
theorem C10_writer_stops_at_first_error_witness :
    ((write_reversed_lines second_write_fails abc_store none).state.attempts
        = [([99, LF], 1), ([98, LF], EOF)]
      ∧ (write_reversed_lines second_write_fails abc_store none).state.freed = 3
      ∧ (write_reversed_lines second_write_fails abc_store none).status = EXIT_FAILURE)
      ∧ (∀ j,
          j < (write_reversed_lines second_write_fails abc_store none).state.attempts.length →
          second_write_fails.fputs_result j = EOF →
          j + 1 = (write_reversed_lines second_write_fails abc_store none).state.attempts.length)
      ∧ ((write_reversed_lines second_write_fails abc_store none).status = EXIT_SUCCESS ↔
          (write_reversed_lines second_write_fails abc_store none).opened = true
            ∧ ∀ j, j < (write_reversed_lines second_write_fails abc_store none
                  ).state.attempts.length →
                second_write_fails.fputs_result j ≠ EOF) :=
  ⟨⟨by decide, by decide, by decide⟩,
    (C10_writer_stops_at_first_error second_write_fails abc_store none).2.2.1,
    (C10_writer_stops_at_first_error second_write_fails abc_store none).2.2.2.2.2.1⟩

/-! ## C11: what the writer emits -/

/-- C11: for every store, when the destination opens and every write
succeeds, the bytes `write_reversed_lines` emits are exactly the
concatenation, in head-to-tail order, of the texts of the nodes with present
content: the strings passed to `fputs` are these texts, one call for each, in
order, nodes with a null `textline` contribute nothing, the bytes delivered
(and the content of a named destination file) are the texts one after the
other, and the status is success. -/
theorem C11_writer_emits_texts (w : World) (head : line_list) (filename : Option String)
    (hw : writes_succeed w filename) :
    (write_reversed_lines w head filename).opened = true
      ∧ (write_reversed_lines w head filename).state.attempts.map (fun a => a.1)
          = head.filterMap (fun entry => entry.textline.map (fun buf => cstr buf.bytes))
      ∧ (write_reversed_lines w head filename).state.written
          = (head.filterMap
              (fun entry => entry.textline.map (fun buf => cstr buf.bytes))).flatten
      ∧ (write_reversed_lines w head filename).state.written = store_text head
      ∧ (∀ name, filename = some name →
          (write_reversed_lines w head filename).world.files name = some (store_text head))
      ∧ (write_reversed_lines w head filename).status = EXIT_SUCCESS := by
  obtain ⟨h1, h2, _⟩ := write_reversed_lines_open head hw.2
  obtain ⟨hwritten, hstatus⟩ := write_reversed_lines_written hw head
  have hatt := write_loop_attempts_eq hw.1 head
  refine ⟨h1, ?_, ?_, hwritten, ?_, hstatus⟩
  · rw [h2]
    exact hatt
  · rw [hwritten, store_text_eq_flatten]
    rfl
  · intro name hname
    subst hname
    have hc := hw.2 name rfl
    have hloop := (write_loop_all_ok hw.1 head write_start (by decide)).1
    simp only [write_reversed_lines, fopen_w, World.log, hc, if_true, Function.update_same]
    rw [hloop]
    rfl

/-- C11, witness: a list of three elements, the second with a null
`textline`, written to the file `out`. -/
theorem C11_writer_emits_texts_witness :
    ((write_reversed_lines (one_file_world abc_file) store_with_sentinel (some "out")
          ).state.written = [99, LF, 97, LF]
        ∧ (write_reversed_lines (one_file_world abc_file) store_with_sentinel (some "out")
          ).state.attempts = [([99, LF], 1), ([97, LF], 1)])
      ∧ (write_reversed_lines (one_file_world abc_file) store_with_sentinel (some "out")
          ).opened = true
      ∧ (write_reversed_lines (one_file_world abc_file) store_with_sentinel (some "out")
          ).state.attempts.map (fun a => a.1)
          = store_with_sentinel.filterMap
              (fun entry => entry.textline.map (fun buf => cstr buf.bytes))
      ∧ (write_reversed_lines (one_file_world abc_file) store_with_sentinel (some "out")
          ).state.written
          = (store_with_sentinel.filterMap
              (fun entry => entry.textline.map (fun buf => cstr buf.bytes))).flatten
      ∧ (write_reversed_lines (one_file_world abc_file) store_with_sentinel (some "out")
          ).state.written = store_text store_with_sentinel
      ∧ (∀ name, some "out" = some name →
          (write_reversed_lines (one_file_world abc_file) store_with_sentinel (some "out")
            ).world.files name = some (store_text store_with_sentinel))
      ∧ (write_reversed_lines (one_file_world abc_file) store_with_sentinel (some "out")
          ).status = EXIT_SUCCESS :=
  ⟨⟨by decide, by decide⟩,
    C11_writer_emits_texts (one_file_world abc_file) store_with_sentinel (some "out")
      (one_file_world_writes abc_file (some "out"))⟩

/-! ## C12: the terminator fix-up -/

theorem MIN_eq_right {a b : Nat} (h : b ≤ a) : MIN a b = b := by
  unfold MIN
  split <;> omega

/-- What `add_text_line_as_first_list_element` achieves: the new node is put
in front of the unchanged list; a null text gives a null `textline`; a text of
fewer than `MAX_LINE_LEN` characters is copied whole, with its NUL, into a
buffer of `strlen + BUFFER_FOR_LF` bytes. -/
theorem add_text_line_spec (p_current_list : line_list) (line : Option (List Nat)) :
    ∃ entry,
      add_text_line_as_first_list_element p_current_list line = entry :: p_current_list
      ∧ (add_text_line_as_first_list_element p_current_list line).tail = p_current_list
      ∧ (add_text_line_as_first_list_element p_current_list line).length
          = p_current_list.length + 1
      ∧ (line = none → entry.textline = none)
      ∧ ∀ text, line = some text →
          ∃ buf, entry.textline = some buf
            ∧ buf.capacity = strlen text + BUFFER_FOR_LF
            ∧ buf.bytes = strncpy text (MIN (strlen text + BUFFER_FOR_LF) MAX_LINE_LEN)
            ∧ (strlen text < MAX_LINE_LEN →
                0 ∈ buf.bytes ∧ node_text entry = cstr text) := by
  cases line with
  | none =>
    refine ⟨{ textline := none }, rfl, rfl, by simp [add_text_line_as_first_list_element],
      fun _ => rfl, ?_⟩
    intro text h
    cases h
  | some text =>
    refine ⟨_, rfl, rfl, by simp [add_text_line_as_first_list_element], ?_, ?_⟩
    · intro h
      cases h
    · intro text' h
      cases h
      refine ⟨_, rfl, rfl, rfl, ?_⟩
      intro hlen
      have hk : 0 < MIN (strlen text + BUFFER_FOR_LF) MAX_LINE_LEN - strlen text := by
        unfold MIN
        simp only [BUFFER_FOR_LF]
        split <;> omega
      constructor
      · simp only [strncpy, List.mem_append, List.mem_replicate]
        exact Or.inr ⟨by omega, trivial⟩
      · simp only [node_text, cstr_strncpy, take_MIN_cstr]
        exact List.take_of_length_le (by simp only [strlen] at hlen; omega)

/-- C13, at the failing input: the text of `MAX_LINE_LEN` = 32766 letters `a`
prepended to the empty store. The buffer has 32768 bytes, of which `strncpy`
writes the first 32766, the letters; none of the bytes written is NUL, so the
node does not hold a string, and the terminator fix-up applied to it runs off
the bytes written. -/
theorem C13_long_text_unterminated :
    strlen long_text = MAX_LINE_LEN
      ∧ add_text_line_as_first_list_element [] (some long_text)
        = [{ textline := some { capacity := MAX_LINE_LEN + 2, bytes := long_text } }]
      ∧ long_text.length = MAX_LINE_LEN
      ∧ 0 ∉ long_text
      ∧ add_linefeed_at_last_line
          [{ textline := some { capacity := MAX_LINE_LEN + 2, bytes := long_text } }] = none := by
  have h0 : 0 ∉ long_text := by simp [long_text, List.mem_replicate]
  have hlen : long_text.length = MAX_LINE_LEN := by simp [long_text]
  have hc : cstr long_text = long_text := cstr_eq_self h0
  have hs : strlen long_text = MAX_LINE_LEN := by rw [strlen, hc, hlen]
  refine ⟨hs, ?_, hlen, h0, ?_⟩
  · have hmin : MIN (MAX_LINE_LEN + BUFFER_FOR_LF) MAX_LINE_LEN = MAX_LINE_LEN :=
      MIN_eq_right (Nat.le_add_right _ _)
    have htake : List.take MAX_LINE_LEN long_text = long_text :=
      List.take_of_length_le (by rw [hlen])
    simp only [add_text_line_as_first_list_element, strncpy, hs, hc, hmin, htake, Nat.sub_self,
      List.replicate_zero, List.append_nil]
    rfl
  · simp only [add_linefeed_at_last_line, h0, if_false]

/-! ## C14: no sentinel line on the construction path -/

/-- C14: for every source file, `read_text_lines_from_file` returns, and no
node of the store it builds has absent (null) content. When the file opens,
the list built by the reading loop, to which `add_linefeed_at_last_line` is
applied, has no node with a null `textline` either, so that the fix-up is
never applied to a head with absent text and gives the store returned. -/
theorem C14_no_sentinel (w : World) (filename : Option String) :
    ∃ head w1, read_text_lines_from_file w filename = some (head, w1)
      ∧ (∀ n ∈ head, n.textline ≠ none)
      ∧ ∀ stream, filename.bind w.files = some stream →
          ∃ p_head, read_loop (stream.length + 1) stream [] = some p_head
            ∧ (∀ n ∈ p_head, n.textline ≠ none)
            ∧ add_linefeed_at_last_line p_head = some head := by
  cases hopen : filename.bind w.files with
  | none =>
    refine ⟨[], (w.log (Event.call Func.read_text_lines_from_file)).log
      (Event.fopen filename Mode.r false), ?_, by simp, ?_⟩
    · simp [read_text_lines_from_file, fopen_r, World.log, hopen]
    · intro stream h
      cases h
  | some stream =>
    obtain ⟨p, hp⟩ := read_loop_total (stream.length + 1) stream [] (by omega)
    have htext := read_loop_textline _ _ _ _ hp (by simp)
    have hnodes := read_loop_node_of _ _ _ _ hp (by simp)
    obtain ⟨q, hq, _, hq2⟩ := add_linefeed_total hnodes
    refine ⟨q, (w.log (Event.call Func.read_text_lines_from_file)).log
      (Event.fopen filename Mode.r true), ?_, hq2, ?_⟩
    · simp [read_text_lines_from_file, fopen_r, World.log, hopen, hp, hq]
    · intro stream' h
      cases h
      exact ⟨p, hp, htext, hq⟩

/-- C14, witness: the file `"a\nb\nc"`. -/
theorem C14_no_sentinel_witness :
    ((read_text_lines_from_file (one_file_world abc_file) (some "in")).map (fun r => r.1)
        = some abc_store
      ∧ ∀ n ∈ abc_store, n.textline ≠ none)
      ∧ ∃ head w1,
          read_text_lines_from_file (one_file_world abc_file) (some "in") = some (head, w1)
          ∧ (∀ n ∈ head, n.textline ≠ none)
          ∧ ∀ stream, (some "in").bind (one_file_world abc_file).files = some stream →
              ∃ p_head, read_loop (stream.length + 1) stream [] = some p_head
                ∧ (∀ n ∈ p_head, n.textline ≠ none)
                ∧ add_linefeed_at_last_line p_head = some head :=
  ⟨⟨by decide, by decide⟩, C14_no_sentinel (one_file_world abc_file) (some "in")⟩

/-! ## C15: ingestion is lossless -/

/-- C15: for every source file without NUL bytes, `read_text_lines_from_file`
returns, each piece read by `fgets` (the text of an entry of the list the
reading loop builds) has at least one and at most `MAX_LINE_LEN - 2` = 32764
bytes and contains a line-feed only as its last byte, and concatenating the
store's texts from tail to head, as they are before the terminator fix-up,
reproduces the file's bytes exactly: an over-long line is split into several
entries and none of its bytes is dropped. -/
theorem C15_ingestion_lossless (w : World) (name : String) (file : List Nat)
    (hfile : w.files name = some file) (h0 : 0 ∉ file) :
    ∃ p_head head w1,
      read_loop (file.length + 1) file [] = some p_head
      ∧ add_linefeed_at_last_line p_head = some head
      ∧ read_text_lines_from_file w (some name) = some (head, w1)
      ∧ (∀ n ∈ p_head, (node_text n).length ≤ MAX_LINE_LEN - 2 ∧ node_text n ≠ []
          ∧ LF ∉ (node_text n).dropLast)
      ∧ (p_head.reverse.map node_text).flatten = file := by
  obtain ⟨p_head, hread, htext, _, hall⟩ := read_loop_file file h0
  have hnodes := read_loop_node_of _ _ _ _ hread (by simp)
  obtain ⟨head, hfix, _, _⟩ := add_linefeed_total hnodes
  refine ⟨p_head, head, (w.log (Event.call Func.read_text_lines_from_file)).log
    (Event.fopen (some name) Mode.r true), hread, hfix, ?_, ?_, htext⟩
  · simp [read_text_lines_from_file, fopen_r, World.log, hfile, hread, hfix]
  · intro n hn
    obtain ⟨t, _, hnt, _, htne, htlen, htlf⟩ := hall n hn
    rw [hnt]
    exact ⟨htlen, htne, htlf⟩

/-- C15, witness: the file `"a\nb\nc"`. -/
theorem C15_ingestion_lossless_witness :
    ((one_file_world abc_file).files "in" = some abc_file ∧ 0 ∉ abc_file)
      ∧ ∃ p_head head w1,
          read_loop (abc_file.length + 1) abc_file [] = some p_head
          ∧ add_linefeed_at_last_line p_head = some head
          ∧ read_text_lines_from_file (one_file_world abc_file) (some "in") = some (head, w1)
          ∧ (∀ n ∈ p_head, (node_text n).length ≤ MAX_LINE_LEN - 2 ∧ node_text n ≠ []
              ∧ LF ∉ (node_text n).dropLast)
          ∧ (p_head.reverse.map node_text).flatten = abc_file :=
  ⟨⟨one_file_world_files abc_file, by decide⟩,
    C15_ingestion_lossless (one_file_world abc_file) "in" abc_file
      (one_file_world_files abc_file) (by decide)⟩

/-! ## C16: the size and the bytes of the output -/

/-- C16: for every non-empty source file without NUL bytes and a run in which
every write succeeds, the output has the same number of bytes as the input
when the input ends with a line-feed and exactly one byte more (a single
added line-feed) when it does not; the output bytes are a rearrangement of the
input bytes plus that optional line-feed. -/
theorem C16_output_size (w : World) (name : String) (filename : Option String)
    (file : List Nat) (hfile : w.files name = some file) (hne : file ≠ []) (h0 : 0 ∉ file)
    (hw : writes_succeed w filename) :
    ∃ out, reversal_output w name filename = some out
      ∧ out.length = file.length + (if file.getLast? = some LF then 0 else 1)
      ∧ List.Perm out (file ++ (if file.getLast? = some LF then [] else [LF])) := by
  obtain ⟨t, next, hsplit, hout⟩ := reversal_output_pieces hfile hne h0 hw
  have hperm : List.Perm
      (t ++ (if file.getLast? = some LF then [] else [LF]) ++ store_text next)
      (file ++ (if file.getLast? = some LF then [] else [LF])) := by
    have h1 := store_text_perm_reverse next
    have h2 : List.Perm
        (t ++ (if file.getLast? = some LF then [] else [LF]) ++ store_text next)
        (store_text next ++ (t ++ (if file.getLast? = some LF then [] else [LF]))) :=
      List.perm_append_comm
    have h3 : List.Perm
        (store_text next ++ (t ++ (if file.getLast? = some LF then [] else [LF])))
        ((next.reverse.map node_text).flatten
          ++ (t ++ (if file.getLast? = some LF then [] else [LF]))) :=
      List.Perm.append_right _ h1
    have h4 : (next.reverse.map node_text).flatten
          ++ (t ++ (if file.getLast? = some LF then [] else [LF]))
        = file ++ (if file.getLast? = some LF then [] else [LF]) := by
      rw [← List.append_assoc, ← hsplit]
    exact (h2.trans h3).trans (by rw [h4])
  refine ⟨_, hout, ?_, hperm⟩
  have := hperm.length_eq
  rw [this, List.length_append]
  split <;> simp

/-- C16, witness: the file `"a\nb\nc"`, of five bytes, gives six bytes. -/
theorem C16_output_size_witness :
    (abc_file ≠ [] ∧ 0 ∉ abc_file ∧ abc_file.getLast? ≠ some LF
        ∧ reversal_output (one_file_world abc_file) "in" none = some [99, LF, 98, LF, 97, LF])
      ∧ ∃ out, reversal_output (one_file_world abc_file) "in" none = some out
          ∧ out.length = abc_file.length + (if abc_file.getLast? = some LF then 0 else 1)
          ∧ List.Perm out (abc_file ++ (if abc_file.getLast? = some LF then [] else [LF])) :=
  ⟨⟨by decide, by decide, by decide, by decide⟩,
    C16_output_size (one_file_world abc_file) "in" none abc_file
      (one_file_world_files abc_file) (by decide) (by decide)
      (one_file_world_writes abc_file none)⟩

/-! ## C17: buffer capacities suffice -/

/-- C17: for every text, `add_text_line_as_first_list_element` allocates
`strlen(text) + BUFFER_FOR_LF` bytes and copies
`MIN(strlen(text) + BUFFER_FOR_LF, MAX_LINE_LEN)` bytes, which never exceeds
that capacity. For every text of length at most 32764, as is every piece the
reader passes (the string in an array filled by `fgets`), the copy count is at
least `strlen(text) + 1`, so that the stored string is the whole text with its
terminating NUL, and after `add_linefeed_at_last_line` the bytes written, the
line-feed appended and the NUL included, still fit in the allocated
capacity. -/
theorem C17_buffer_capacity (p_current_list : line_list) (text : List Nat) :
    (∃ buf,
      add_text_line_as_first_list_element p_current_list (some text)
        = { textline := some buf } :: p_current_list
      ∧ buf.capacity = strlen text + BUFFER_FOR_LF
      ∧ buf.bytes.length = MIN (strlen text + BUFFER_FOR_LF) MAX_LINE_LEN
      ∧ buf.bytes.length ≤ buf.capacity
      ∧ (strlen text ≤ MAX_LINE_LEN - 2 →
          strlen text + 1 ≤ buf.bytes.length
            ∧ buf.bytes = cstr text ++ [0, 0]
            ∧ cstr buf.bytes = cstr text
            ∧ ∃ buf',
                add_linefeed_at_last_line ({ textline := some buf } :: p_current_list)
                  = some ({ textline := some buf' } :: p_current_list)
                ∧ buf'.capacity = buf.capacity
                ∧ buf'.bytes.length ≤ buf'.capacity
                ∧ (LF ∉ cstr text → buf'.bytes = cstr text ++ [LF, 0])
                ∧ (LF ∈ cstr text → buf' = buf)))
      ∧ ∀ stream buf rest, fgets (MAX_LINE_LEN - 1) stream = some (buf, rest) →
          strlen buf ≤ MAX_LINE_LEN - 2 := by
  refine ⟨⟨_, rfl, rfl, strncpy_length _ _, ?_, ?_⟩, ?_⟩
  · rw [strncpy_length]
    exact MIN_le_left _ _
  · intro hlen
    have hshort := add_text_line_short p_current_list hlen
    simp only [add_text_line_as_first_list_element, node_of, List.cons.injEq, and_true,
      line_list_t.mk.injEq, Option.some.injEq, text_buffer.mk.injEq] at hshort
    obtain ⟨hcap, hbytes⟩ := hshort
    have h0 := nul_not_mem_cstr text
    have hfix := add_linefeed_node_of p_current_list h0
    simp only [node_of] at hfix
    rw [hbytes]
    refine ⟨by simp [strlen], rfl, cstr_append_nul h0 [0], ?_⟩
    by_cases hl : LF ∈ cstr text
    · refine ⟨{ capacity := strlen text + BUFFER_FOR_LF, bytes := cstr text ++ [0, 0] }, ?_,
        rfl, by simp [strlen, BUFFER_FOR_LF], fun h => absurd hl h, fun _ => rfl⟩
      rw [hcap]
      simpa [hl, node_of] using hfix
    · refine ⟨{ capacity := strlen text + BUFFER_FOR_LF, bytes := cstr text ++ [LF, 0] }, ?_,
        rfl, by simp [strlen, BUFFER_FOR_LF], fun _ => rfl, fun h => absurd h hl⟩
      rw [hcap]
      simpa [hl, node_with_linefeed] using hfix
  · intro stream buf rest h
    exact strlen_fgets h

/-- C17, witness: the text `"c"`, as `fgets` delivers it: three bytes are
allocated and written, and the text with the line-feed and the NUL fills
them. -/
theorem C17_buffer_capacity_witness :
    (strlen [99, 0] ≤ MAX_LINE_LEN - 2
        ∧ add_text_line_as_first_list_element [] (some [99, 0])
          = [{ textline := some { capacity := 3, bytes := [99, 0, 0] } }]
        ∧ add_linefeed_at_last_line [{ textline := some { capacity := 3, bytes := [99, 0, 0] } }]
          = some [{ textline := some { capacity := 3, bytes := [99, LF, 0] } }])
      ∧ (∃ buf,
          add_text_line_as_first_list_element [] (some [99, 0])
            = { textline := some buf } :: []
          ∧ buf.capacity = strlen [99, 0] + BUFFER_FOR_LF
          ∧ buf.bytes.length = MIN (strlen [99, 0] + BUFFER_FOR_LF) MAX_LINE_LEN
          ∧ buf.bytes.length ≤ buf.capacity
          ∧ (strlen [99, 0] ≤ MAX_LINE_LEN - 2 →
              strlen [99, 0] + 1 ≤ buf.bytes.length
                ∧ buf.bytes = cstr [99, 0] ++ [0, 0]
                ∧ cstr buf.bytes = cstr [99, 0]
                ∧ ∃ buf',
                    add_linefeed_at_last_line ({ textline := some buf } :: [])
                      = some ({ textline := some buf' } :: [])
                    ∧ buf'.capacity = buf.capacity
                    ∧ buf'.bytes.length ≤ buf'.capacity
                    ∧ (LF ∉ cstr [99, 0] → buf'.bytes = cstr [99, 0] ++ [LF, 0])
                    ∧ (LF ∈ cstr [99, 0] → buf' = buf)))
      ∧ ∀ stream buf rest, fgets (MAX_LINE_LEN - 1) stream = some (buf, rest) →
          strlen buf ≤ MAX_LINE_LEN - 2 :=
  ⟨⟨by decide, by decide, by decide⟩, (C17_buffer_capacity [] [99, 0]).1,
    (C17_buffer_capacity [] [99, 0]).2⟩

end Tac
